import Mathlib

/-!
Verification development for the copy-on-write keyed stack `cxx::stack<K, V>`
(file src/stack.h, final revision).

The storage layer `stack_data` keeps two cross-referenced structures:
a doubly linked global order list (`stack_list`, one slot per live element,
each slot holding a weak reference to its key's bucket) and an ordered map
(`key_map`) from key to a bucket (the list of live values pushed under that
key, oldest first).  Each bucket element stores a stable iterator back to
its own slot in the global list.  We embed a slot as the pair
(key of the bucket it references, value of the bucket element wired to it);
the wiring discipline maintained by push/pop (a new element's back iterator
is the slot just appended, and both ends are always removed together)
makes this pairing stable, so erasing through a bucket element's back
iterator is erasing the last slot carrying that key.  The ordered map is
embedded as a strictly key-sorted association list.

The handle layer `stack` is embedded as a world: a heap of storage blocks
plus the list of live handles; `use_count` of a block is the number of
handles referencing it, exactly the `shared_ptr` reference count between
operations.  A null `shared_ptr` (moved-from handle) is `none`; behaviour
that is undefined in C++ (dereferencing a null or expired pointer) is
modelled by the `corrupt` error or a `none` observation.
-/

/-- Failures surfaced by the container.  `empty_container` and
`key_not_found` are the two `std::invalid_argument` values thrown by
`stack_data` ("Tried to use ... on empty stack." and "... on stack with no
key k.").  `alloc_failure` stands for any exception escaping an allocation
or a `K`/`V` copy constructor during `push`.  `corrupt` marks undefined
behaviour (dereferencing a null handle or an expired weak reference); it is
proved unreachable for valid states. -/
inductive err where
  | empty_container
  | key_not_found
  | alloc_failure
  | corrupt
deriving DecidableEq, Repr

/-- The fallible steps of `stack_data::push`, in source order:
`stack_list.push_back` (slot allocation), the `element_t` constructor
(copying the value), `make_shared<value_data_t>` (bucket allocation),
`list::push_back` into the bucket, and `map::insert` (map node allocation
plus key copy). -/
inductive push_fail where
  | alloc_slot
  | copy_elem
  | alloc_bucket
  | bucket_push
  | map_insert
deriving DecidableEq, Repr

section Maps

variable {K : Type} {B : Type} [LinearOrder K]

/-- `std::map::find`: first entry with the given key of a (sorted)
association list, or `none`. -/
def map_find (k : K) : List (K × B) → Option B
  | [] => none
  | p :: rest => if p.1 = k then some p.2 else map_find k rest

/-- `std::map::insert`: insert at the sorted position; an already present
key is left unchanged (insert does not overwrite). -/
def map_insert (k : K) (b : B) : List (K × B) → List (K × B)
  | [] => [(k, b)]
  | p :: rest =>
    if k < p.1 then (k, b) :: p :: rest
    else if k = p.1 then p :: rest
    else p :: map_insert k b rest

/-- In-place mutation of the bucket object reached through the map entry
for `k` (the C++ code mutates `*it->second`; the entry keeps its
position). -/
def map_set (k : K) (b : B) (m : List (K × B)) : List (K × B) :=
  m.map (fun p => if p.1 = k then (p.1, b) else p)

/-- `std::map::erase` of the entry for `k`. -/
def map_erase (k : K) : List (K × B) → List (K × B)
  | [] => []
  | p :: rest => if p.1 = k then map_erase k rest else p :: map_erase k rest

/-- Strict key ordering of a `std::map`'s entries. -/
def map_sorted (m : List (K × B)) : Prop :=
  List.Pairwise (fun p q : K × B => p.1 < q.1) m

end Maps

/-- The storage block `stack_data`: the global order list (one `(key,
value)` pair per slot, oldest first) and the key map (bucket of live
values per key, oldest first, strictly sorted by key). -/
structure stack_data (K V : Type) where
  stack_list : List (K × V)
  key_map : List (K × List V)
deriving DecidableEq, Repr

section Storage

variable {K V : Type} [LinearOrder K]

/-- The live values pushed under key `k`, in push order: the contents the
bucket of `k` must hold. -/
def valuesOf (k : K) (l : List (K × V)) : List V :=
  (l.filter (fun p => decide (p.1 = k))).map Prod.snd

/-- A fresh empty storage (`stack_data::stack_data()`). -/
def stack_data.empty : stack_data K V := ⟨[], []⟩

/-- `key_map` update performed by a successful push: find the bucket for
`k` and append `v`, creating the map entry when absent
(`stack_data::push`, the branch on `key_map.find`). -/
def pushBucket (k : K) (v : V) (m : List (K × List V)) : List (K × List V) :=
  match map_find k m with
  | none => map_insert k [v] m
  | some b => map_set k (b ++ [v]) m

/-- `stack_data::push` (successful run): append a slot to the global list
and the value to the key's bucket, wiring the two together. -/
def stack_data.push (k : K) (v : V) (sd : stack_data K V) : stack_data K V :=
  ⟨sd.stack_list ++ [(k, v)], pushBucket k v sd.key_map⟩

/-- `stack_data::size`: the length of the global list. -/
def stack_data.size (sd : stack_data K V) : Nat :=
  sd.stack_list.length

/-- `stack::count`: locate `k` in `key_map`; absent gives `0`, otherwise
the bucket's length. -/
def stack_data.count (k : K) (sd : stack_data K V) : Nat :=
  match map_find k sd.key_map with
  | none => 0
  | some b => b.length

/-- `stack_data::clear`: drop both structures. -/
def stack_data.clearData (_sd : stack_data K V) : stack_data K V :=
  ⟨[], []⟩

/-- `stack_data::pop()`: fail on an empty stack, otherwise resolve the tail
slot's bucket, drop the bucket's tail value, erase the map entry if the
bucket emptied, and drop the tail slot.  The `corrupt` branches model the
undefined dereference of an expired weak reference / empty bucket and are
unreachable for valid states. -/
def stack_data.pop (sd : stack_data K V) : Except err (stack_data K V) :=
  if sd.size = 0 then .error .empty_container
  else
    match sd.stack_list.getLast? with
    | none => .error .corrupt
    | some (k, _) =>
      match map_find k sd.key_map with
      | none => .error .corrupt
      | some b =>
        match b.getLast? with
        | none => .error .corrupt
        | some _ =>
          let b' := b.dropLast
          let km := if b'.isEmpty then map_erase k sd.key_map else map_set k b' sd.key_map
          .ok ⟨sd.stack_list.dropLast, km⟩

/-- Remove the first pair carrying key `k`. -/
def eraseFirstKey (k : K) : List (K × V) → List (K × V)
  | [] => []
  | p :: rest => if p.1 = k then rest else p :: eraseFirstKey k rest

/-- Remove the last pair carrying key `k`: the global slot reached through
the back iterator stored in the bucket's tail element
(`to_del = last->list.back().it` in `stack_data::pop(const K&)`). -/
def eraseLastKey (k : K) (l : List (K × V)) : List (K × V) :=
  (eraseFirstKey k l.reverse).reverse

/-- `stack_data::pop(const K&)`: fail with `empty_container` on an empty
stack (checked first), with `key_not_found` when `k` has no bucket;
otherwise drop the bucket's tail value, erase the map entry if the bucket
emptied, and erase the slot reached through the removed value's back
iterator. -/
def stack_data.popKey (k : K) (sd : stack_data K V) : Except err (stack_data K V) :=
  if sd.size = 0 then .error .empty_container
  else
    match map_find k sd.key_map with
    | none => .error .key_not_found
    | some b =>
      match b.getLast? with
      | none => .error .corrupt
      | some _ =>
        let b' := b.dropLast
        let km := if b'.isEmpty then map_erase k sd.key_map else map_set k b' sd.key_map
        .ok ⟨eraseLastKey k sd.stack_list, km⟩

/-- `stack_data::front()`: fail on an empty stack, otherwise return the
tail slot's bucket key together with that bucket's tail value. -/
def stack_data.front (sd : stack_data K V) : Except err (K × V) :=
  if sd.size = 0 then .error .empty_container
  else
    match sd.stack_list.getLast? with
    | none => .error .corrupt
    | some (k, _) =>
      match map_find k sd.key_map with
      | none => .error .corrupt
      | some b =>
        match b.getLast? with
        | none => .error .corrupt
        | some v => .ok (k, v)

/-- `stack_data::front(const K&)`: the same two checks as `pop(const K&)`,
then the bucket's tail value. -/
def stack_data.frontKey (k : K) (sd : stack_data K V) : Except err V :=
  if sd.size = 0 then .error .empty_container
  else
    match map_find k sd.key_map with
    | none => .error .key_not_found
    | some b =>
      match b.getLast? with
      | none => .error .corrupt
      | some v => .ok v

/-- Replace the value of the first pair carrying key `k`. -/
def setFirstKey (k : K) (nv : V) : List (K × V) → List (K × V)
  | [] => []
  | p :: rest => if p.1 = k then (p.1, nv) :: rest else p :: setFirstKey k nv rest

/-- Replace the value of the last pair carrying key `k`. -/
def setLastKey (k : K) (nv : V) (l : List (K × V)) : List (K × V) :=
  (setFirstKey k nv l.reverse).reverse

/-- The caller's write through the reference returned by the mutable
`front()`: the reference aims at the bucket element of the global tail
slot, so the write updates that element (and therefore the slot wired to
it). -/
def stack_data.writeFront (nv : V) (sd : stack_data K V) : stack_data K V :=
  match sd.stack_list.getLast? with
  | none => sd
  | some (k, _) =>
    ⟨sd.stack_list.dropLast ++ [(k, nv)],
     match map_find k sd.key_map with
     | none => sd.key_map
     | some b => map_set k (b.dropLast ++ [nv]) sd.key_map⟩

/-- The caller's write through the reference returned by the mutable
`front(const K&)`: the reference aims at the tail element of `k`'s bucket,
whose back iterator is the last slot carrying `k`. -/
def stack_data.writeFrontKey (k : K) (nv : V) (sd : stack_data K V) : stack_data K V :=
  match map_find k sd.key_map with
  | none => sd
  | some b =>
    ⟨setLastKey k nv sd.stack_list, map_set k (b.dropLast ++ [nv]) sd.key_map⟩

/-- The key map a storage with global list `l` must hold: the map built by
replaying every push. -/
def canonMap (l : List (K × V)) : List (K × List V) :=
  l.foldl (fun m p => pushBucket p.1 p.2 m) []

/-- The storage obtained by pushing the pairs of `l`, oldest first, onto a
fresh empty storage. -/
def pushes (l : List (K × V)) : stack_data K V :=
  l.foldl (fun sd p => sd.push p.1 p.2) stack_data.empty

/-- Representation invariant of `stack_data`: the key map is exactly the
map a replay of the global list would build (each key's bucket holds its
live values in order, entries sorted by key, no entry empty). -/
def stack_data.Inv (sd : stack_data K V) : Prop :=
  sd.key_map = canonMap sd.stack_list

instance [DecidableEq V] (sd : stack_data K V) : Decidable sd.Inv := by
  unfold stack_data.Inv; infer_instance

/-- The loop of the deep copy constructor
`stack_data::stack_data(const stack_data&)`: walk the source's global
list; for each slot resolve its bucket in the source map, read the value
at the per-key cursor held in `next_value` (starting at the bucket's
begin), push that `(key, value)` onto the storage under construction and
advance the cursor.  `none` models the undefined dereference of an expired
weak reference or past-the-end cursor. -/
def replay_go (src : stack_data K V) :
    List (K × V) → stack_data K V → List (K × Nat) → Option (stack_data K V)
  | [], acc, _ => some acc
  | (k, _) :: rest, acc, nv =>
    match map_find k src.key_map with
    | none => none
    | some b =>
      let idx := (map_find k nv).getD 0
      match b[idx]? with
      | none => none
      | some v =>
        let nv' := match map_find k nv with
          | none => map_insert k 1 nv
          | some n => map_set k (n + 1) nv
        replay_go src rest (acc.push k v) nv'

/-- The deep copy constructor: replay the source's global order. -/
def copy_replay (src : stack_data K V) : Option (stack_data K V) :=
  replay_go src src.stack_list stack_data.empty []

/-- `stack_data::push` instrumented with an exception oracle.  Returns the
resulting storage together with the error, tracing the source: the
placeholder slot is appended first; every throw inside the `try` block
lands in the `catch`, which pops the placeholder back off and rethrows.
The C++ steps that fail here do so under the standard containers' strong
guarantee, so no other rollback is needed: at every failure point the key
map and every bucket are still untouched (a bucket or map node built for a
new key lives only in the local `ptr` until `map::insert` has succeeded,
and `list::push_back` / `map::insert` leave their container unchanged on
throw). -/
def stack_data.pushF (fp : Option push_fail) (k : K) (v : V) (sd : stack_data K V) :
    stack_data K V × Option err :=
  if fp = some .alloc_slot then
    (sd, some .alloc_failure)
  else
    let sl1 := sd.stack_list ++ [(k, v)]
    if fp = some .copy_elem then
      (⟨sl1.dropLast, sd.key_map⟩, some .alloc_failure)
    else
      match map_find k sd.key_map with
      | none =>
        if fp = some .alloc_bucket then (⟨sl1.dropLast, sd.key_map⟩, some .alloc_failure)
        else if fp = some .bucket_push then (⟨sl1.dropLast, sd.key_map⟩, some .alloc_failure)
        else if fp = some .map_insert then (⟨sl1.dropLast, sd.key_map⟩, some .alloc_failure)
        else (⟨sl1, map_insert k [v] sd.key_map⟩, none)
      | some b =>
        if fp = some .bucket_push then (⟨sl1.dropLast, sd.key_map⟩, some .alloc_failure)
        else (⟨sl1, map_set k (b ++ [v]) sd.key_map⟩, none)

/-- Storage states reachable by the container's operations. -/
inductive Reachable : stack_data K V → Prop where
  | empty : Reachable stack_data.empty
  | push (k : K) (v : V) {sd : stack_data K V} :
      Reachable sd → Reachable (sd.push k v)
  | pop {sd sd' : stack_data K V} :
      Reachable sd → sd.pop = .ok sd' → Reachable sd'
  | popKey (k : K) {sd sd' : stack_data K V} :
      Reachable sd → sd.popKey k = .ok sd' → Reachable sd'
  | clearData {sd : stack_data K V} :
      Reachable sd → Reachable sd.clearData
  | writeFront (nv : V) {sd : stack_data K V} :
      Reachable sd → Reachable (sd.writeFront nv)
  | writeFrontKey (k : K) (nv : V) {sd : stack_data K V} :
      Reachable sd → Reachable (sd.writeFrontKey k nv)

end Storage

/-- A handle (`class stack`): the `shared_ptr<stack_data>` (a heap index,
`none` for a null pointer as left by a move) and the `is_unsharable`
(Tainted) flag. -/
structure handle_t where
  dataRef : Option Nat
  is_unsharable : Bool
deriving DecidableEq, Repr

/-- The single-threaded program state the handles live in: the heap of
storage blocks (allocation appends; an index is a `shared_ptr` target) and
the live handles.  Blocks no handle references anymore are simply never
looked at again (the model does not reuse indices). -/
structure world (K V : Type) where
  heap : List (stack_data K V)
  handles : List handle_t
deriving DecidableEq, Repr

section Handles

variable {K V : Type} [LinearOrder K]

/-- The heap index handle `i` references (`data`), if the handle exists
and its pointer is not null. -/
def refOf (w : world K V) (i : Nat) : Option Nat :=
  (w.handles[i]?).bind handle_t.dataRef

/-- The storage block handle `i` references (`*data`), if any. -/
def storageOf (w : world K V) (i : Nat) : Option (stack_data K V) :=
  (refOf w i).bind (fun d => w.heap[d]?)

/-- The observable contents of handle `i`: the global order of its
storage, from which every query (`size`, `count`, both `front` forms, key
iteration) is determined for a valid storage. -/
def obsH (w : world K V) (i : Nat) : Option (List (K × V)) :=
  (storageOf w i).map stack_data.stack_list

/-- Handle `i`'s Tainted flag. -/
def taintH (w : world K V) (i : Nat) : Option Bool :=
  (w.handles[i]?).map handle_t.is_unsharable

/-- `stack::size` through handle `i` (`none`: the call dereferences a null
pointer). -/
def sizeH (w : world K V) (i : Nat) : Option Nat :=
  (storageOf w i).map stack_data.size

/-- `stack::count` through handle `i`. -/
def countH (w : world K V) (i : Nat) (k : K) : Option Nat :=
  (storageOf w i).map (stack_data.count k)

/-- `shared_ptr::use_count` of heap block `d`: the number of live handles
referencing it (between operations, handles are the only owners). -/
def use_count (d : Nat) (w : world K V) : Nat :=
  w.handles.countP (fun h => decide (h.dataRef = some d))

/-- Every handle's pointer aims inside the heap (true of every state the
program can build; rules out the model-only artifact of a dangling
index). -/
def WValid (w : world K V) : Prop :=
  ∀ h ∈ w.handles, ∀ d : Nat, h.dataRef = some d → d < w.heap.length

instance (w : world K V) : Decidable (WValid w) := by
  unfold WValid
  have : ∀ h : handle_t, Decidable (∀ d : Nat, h.dataRef = some d → d < w.heap.length) := by
    intro h
    cases hd : h.dataRef with
    | none => exact .isTrue (by simp [hd])
    | some d => exact decidable_of_iff (d < w.heap.length) (by simp [hd])
  exact List.decidableBAll _ w.handles

/-- `std::make_shared<stack_data>(other)`: the deep copy constructor.  The
`none` (undefined) branch of the replay never runs for a valid source; the
fallback keeps the function total. -/
def copy_ctor (sd : stack_data K V) : stack_data K V :=
  (copy_replay sd).getD stack_data.empty

/-- `stack::push`: `make_copy_if_needed(false)` (clone the storage when
`use_count > 1`), run `stack_data::push` on the chosen block, and on
success `assume_state` repoints the handle and stores the mark `false`.
On a throw the handle keeps its previous state; a freshly cloned block is
then dropped unreferenced (the pair returned is the original world).  The
oracle `fp` drives `stack_data::push`'s exception points.  `corrupt`
reports a null-pointer dereference (moved-from handle) or a call on a
handle index that does not exist. -/
def worldPushF (fp : Option push_fail) (i : Nat) (k : K) (v : V) (w : world K V) :
    world K V × Option err :=
  match w.handles[i]? with
  | none => (w, some .corrupt)
  | some h =>
    match h.dataRef with
    | none => (w, some .corrupt)
    | some d =>
      match w.heap[d]? with
      | none => (w, some .corrupt)
      | some sd =>
        if 1 < use_count d w then
          match (copy_ctor sd).pushF fp k v with
          | (_, some e) => (w, some e)
          | (sd', none) =>
            (⟨w.heap ++ [sd'], w.handles.set i ⟨some w.heap.length, false⟩⟩, none)
        else
          match sd.pushF fp k v with
          | (sd', some e) => (⟨w.heap.set d sd', w.handles⟩, some e)
          | (sd', none) =>
            (⟨w.heap.set d sd', w.handles.set i ⟨some d, false⟩⟩, none)

/-- `stack::pop()`: copy-on-write, then `stack_data::pop` on the chosen
block; `assume_state` only on success (the throw happens before any
mutation, so the failing world is unchanged). -/
def worldPop (i : Nat) (w : world K V) : world K V × Option err :=
  match w.handles[i]? with
  | none => (w, some .corrupt)
  | some h =>
    match h.dataRef with
    | none => (w, some .corrupt)
    | some d =>
      match w.heap[d]? with
      | none => (w, some .corrupt)
      | some sd =>
        if 1 < use_count d w then
          match (copy_ctor sd).pop with
          | .error e => (w, some e)
          | .ok sd' =>
            (⟨w.heap ++ [sd'], w.handles.set i ⟨some w.heap.length, false⟩⟩, none)
        else
          match sd.pop with
          | .error e => (w, some e)
          | .ok sd' =>
            (⟨w.heap.set d sd', w.handles.set i ⟨some d, false⟩⟩, none)

/-- `stack::pop(const K&)`: same wrapper around `stack_data::pop(k)`. -/
def worldPopKey (i : Nat) (k : K) (w : world K V) : world K V × Option err :=
  match w.handles[i]? with
  | none => (w, some .corrupt)
  | some h =>
    match h.dataRef with
    | none => (w, some .corrupt)
    | some d =>
      match w.heap[d]? with
      | none => (w, some .corrupt)
      | some sd =>
        if 1 < use_count d w then
          match (copy_ctor sd).popKey k with
          | .error e => (w, some e)
          | .ok sd' =>
            (⟨w.heap ++ [sd'], w.handles.set i ⟨some w.heap.length, false⟩⟩, none)
        else
          match sd.popKey k with
          | .error e => (w, some e)
          | .ok sd' =>
            (⟨w.heap.set d sd', w.handles.set i ⟨some d, false⟩⟩, none)

/-- `stack::clear`: if shared, drop the reference and point at a fresh
empty block; otherwise clear the block in place.  Either way the handle's
flag becomes `false`. -/
def worldClear (i : Nat) (w : world K V) : world K V × Option err :=
  match w.handles[i]? with
  | none => (w, some .corrupt)
  | some h =>
    match h.dataRef with
    | none => (w, some .corrupt)
    | some d =>
      match w.heap[d]? with
      | none => (w, some .corrupt)
      | some sd =>
        if 1 < use_count d w then
          (⟨w.heap ++ [stack_data.empty], w.handles.set i ⟨some w.heap.length, false⟩⟩, none)
        else
          (⟨w.heap.set d sd.clearData, w.handles.set i ⟨some d, false⟩⟩, none)

/-- The non-const `stack::front()`:
`assume_state(make_copy_if_needed(true))` first — clone when shared,
adopt the mark `true` unconditionally — and only then call
`stack_data::front` on the handle's (now current) block, whose throw
leaves the already-updated handle in place. -/
def worldFront (i : Nat) (w : world K V) : world K V × Except err (K × V) :=
  match w.handles[i]? with
  | none => (w, .error .corrupt)
  | some h =>
    match h.dataRef with
    | none => (w, .error .corrupt)
    | some d =>
      match w.heap[d]? with
      | none => (w, .error .corrupt)
      | some sd =>
        if 1 < use_count d w then
          (⟨w.heap ++ [copy_ctor sd], w.handles.set i ⟨some w.heap.length, true⟩⟩,
           (copy_ctor sd).front)
        else
          (⟨w.heap, w.handles.set i ⟨some d, true⟩⟩, sd.front)

/-- The non-const `stack::front(const K&)`: same wrapper around
`stack_data::front(k)`. -/
def worldFrontKey (i : Nat) (k : K) (w : world K V) : world K V × Except err V :=
  match w.handles[i]? with
  | none => (w, .error .corrupt)
  | some h =>
    match h.dataRef with
    | none => (w, .error .corrupt)
    | some d =>
      match w.heap[d]? with
      | none => (w, .error .corrupt)
      | some sd =>
        if 1 < use_count d w then
          (⟨w.heap ++ [copy_ctor sd], w.handles.set i ⟨some w.heap.length, true⟩⟩,
           (copy_ctor sd).frontKey k)
        else
          (⟨w.heap, w.handles.set i ⟨some d, true⟩⟩, sd.frontKey k)

/-- A write through the reference returned by the mutable `front()`: when
the accessor succeeded, the caller stores `nv` through the returned
reference into the handle's (now exclusively owned) block. -/
def worldWriteFront (i : Nat) (nv : V) (w : world K V) : world K V :=
  match worldFront i w with
  | (w', .error _) => w'
  | (w', .ok _) =>
    match refOf w' i with
    | none => w'
    | some d =>
      match w'.heap[d]? with
      | none => w'
      | some sd => ⟨w'.heap.set d (sd.writeFront nv), w'.handles⟩

/-- A write through the reference returned by the mutable
`front(const K&)`. -/
def worldWriteFrontKey (i : Nat) (k : K) (nv : V) (w : world K V) : world K V :=
  match worldFrontKey i k w with
  | (w', .error _) => w'
  | (w', .ok _) =>
    match refOf w' i with
    | none => w'
    | some d =>
      match w'.heap[d]? with
      | none => w'
      | some sd => ⟨w'.heap.set d (sd.writeFrontKey k nv), w'.handles⟩

/-- `stack::stack(const stack&)`: the new handle (appended at index
`w.handles.length`) deep-clones when the source is Tainted and otherwise
shares the source's block; its own flag starts `false` in both branches. -/
def worldCopy (i : Nat) (w : world K V) : world K V :=
  match w.handles[i]? with
  | none => w
  | some h =>
    if h.is_unsharable then
      match h.dataRef with
      | none => w
      | some d =>
        match w.heap[d]? with
        | none => w
        | some sd =>
          ⟨w.heap ++ [copy_ctor sd], w.handles ++ [⟨some w.heap.length, false⟩]⟩
    else
      ⟨w.heap, w.handles ++ [⟨h.dataRef, false⟩]⟩

/-- `stack::operator=(stack)` for `target = src`: the by-value parameter
is copy-constructed from `src` (share, or deep-clone when `src` is
Tainted), then swapped into `target`; `target`'s old reference is released
with the temporary. -/
def worldAssign (target src : Nat) (w : world K V) : world K V :=
  match w.handles[src]? with
  | none => w
  | some h =>
    if h.is_unsharable then
      match h.dataRef with
      | none => w
      | some d =>
        match w.heap[d]? with
        | none => w
        | some sd =>
          ⟨w.heap ++ [copy_ctor sd], w.handles.set target ⟨some w.heap.length, false⟩⟩
    else
      ⟨w.heap, w.handles.set target ⟨h.dataRef, false⟩⟩

/-- `stack::stack(stack&&)`: the new handle (appended at index
`w.handles.length`) takes the source's pointer and flag; moving the
`shared_ptr` leaves the source's pointer null and its flag untouched. -/
def worldMove (i : Nat) (w : world K V) : world K V :=
  match w.handles[i]? with
  | none => w
  | some h =>
    ⟨w.heap, (w.handles.set i ⟨none, h.is_unsharable⟩) ++ [⟨h.dataRef, h.is_unsharable⟩]⟩

/-- The mutating operations of the public interface. -/
inductive mop (K V : Type) where
  | push (k : K) (v : V)
  | pop
  | popKey (k : K)
  | clearOp
  | writeFront (nv : V)
  | writeFrontKey (k : K) (nv : V)

/-- Run one mutating operation through handle `i` (exception-free runs). -/
def applyMop (m : mop K V) (i : Nat) (w : world K V) : world K V :=
  match m with
  | .push k v => (worldPushF none i k v w).1
  | .pop => (worldPop i w).1
  | .popKey k => (worldPopKey i k w).1
  | .clearOp => (worldClear i w).1
  | .writeFront nv => worldWriteFront i nv w
  | .writeFrontKey k nv => worldWriteFrontKey i k nv w

end Handles

/-! ### Association map lemmas -/

section MapLemmas

variable {K B : Type} [LinearOrder K]

theorem map_find_eq_none {k : K} {m : List (K × B)}
    (h : ∀ p ∈ m, p.1 ≠ k) : map_find k m = none := by
  induction m with
  | nil => rfl
  | cons p rest ih =>
    have hp : p.1 ≠ k := h p (by simp)
    simp only [map_find, if_neg hp]
    exact ih (fun q hq => h q (by simp [hq]))

theorem map_find_insert {k k' : K} (b : B) {m : List (K × B)}
    (hnone : map_find k m = none) :
    map_find k' (map_insert k b m) = if k' = k then some b else map_find k' m := by
  induction m with
  | nil =>
    simp only [map_insert, map_find]
    by_cases h : k = k'
    · subst h; simp
    · rw [if_neg h, if_neg (fun hh : k' = k => h hh.symm)]
  | cons p rest ih =>
    have hp : p.1 ≠ k := by
      intro he
      simp [map_find, if_pos he] at hnone
    have hrest : map_find k rest = none := by
      simpa [map_find, if_neg hp] using hnone
    simp only [map_insert]
    rcases lt_trichotomy k p.1 with hlt | heq | hgt
    · rw [if_pos hlt]
      simp only [map_find]
      by_cases h : k = k'
      · subst h; simp
      · rw [if_neg h, if_neg (fun hh : k' = k => h hh.symm)]
    · exact absurd heq.symm hp
    · rw [if_neg (not_lt.mpr hgt.le), if_neg hgt.ne']
      simp only [map_find]
      by_cases h2 : p.1 = k'
      · rw [if_pos h2, if_pos h2, if_neg (fun hh : k' = k => hp (h2.trans hh))]
      · rw [if_neg h2, if_neg h2, ih hrest]

theorem map_find_set (k k' : K) (b : B) (m : List (K × B)) :
    map_find k' (map_set k b m) =
      if k' = k then (map_find k m).map (fun _ => b) else map_find k' m := by
  induction m with
  | nil => by_cases h : k' = k <;> simp [map_set, map_find, h]
  | cons p rest ih =>
    simp only [map_set, List.map_cons] at ih ⊢
    by_cases hp : p.1 = k
    · by_cases h : k' = k
      · have he : p.1 = k' := hp.trans h.symm
        simp [map_find, hp, h, he]
      · have hne : p.1 ≠ k' := fun hh => h (hh.symm.trans hp)
        simp [map_find, hp, h, hne, ih, Ne.symm h]
    · by_cases h2 : p.1 = k'
      · have h : k' ≠ k := fun hh => hp (h2.trans hh)
        simp [map_find, hp, h2, h]
      · simp [map_find, hp, h2, ih]

theorem map_find_erase (k k' : K) (m : List (K × B)) :
    map_find k' (map_erase k m) = if k' = k then none else map_find k' m := by
  induction m with
  | nil => by_cases h : k' = k <;> simp [map_erase, map_find, h]
  | cons p rest ih =>
    simp only [map_erase]
    by_cases hp : p.1 = k
    · rw [if_pos hp, ih]
      by_cases h : k' = k
      · simp [h]
      · have hne : p.1 ≠ k' := fun hh => h (hh.symm.trans hp)
        simp [h, map_find, hne]
    · rw [if_neg hp]
      by_cases h2 : p.1 = k'
      · by_cases h : k' = k
        · exact absurd (h2.trans h) hp
        · simp [map_find, h2, h]
      · simp only [map_find, if_neg h2]
        exact ih

theorem mem_map_insert {p : K × B} {k : K} {b : B} {m : List (K × B)}
    (h : p ∈ map_insert k b m) : p = (k, b) ∨ p ∈ m := by
  induction m with
  | nil => simpa [map_insert] using h
  | cons q rest ih =>
    simp only [map_insert] at h
    by_cases h1 : k < q.1
    · rw [if_pos h1] at h
      rcases List.mem_cons.mp h with h | h
      · exact Or.inl h
      · exact Or.inr h
    · rw [if_neg h1] at h
      by_cases h2 : k = q.1
      · rw [if_pos h2] at h
        exact Or.inr h
      · rw [if_neg h2] at h
        rcases List.mem_cons.mp h with h | h
        · exact Or.inr (List.mem_cons.mpr (Or.inl h))
        · rcases ih h with h' | h'
          · exact Or.inl h'
          · exact Or.inr (List.mem_cons.mpr (Or.inr h'))

theorem map_sorted_insert {k : K} {b : B} {m : List (K × B)}
    (hs : map_sorted m) : map_sorted (map_insert k b m) := by
  induction m with
  | nil => simp [map_insert, map_sorted]
  | cons q rest ih =>
    obtain ⟨hq, hrest⟩ := List.pairwise_cons.mp hs
    simp only [map_insert]
    rcases lt_trichotomy k q.1 with hlt | heq | hgt
    · rw [if_pos hlt]
      refine List.Pairwise.cons ?_ (List.Pairwise.cons hq hrest)
      intro p hp
      rcases List.mem_cons.mp hp with hp | hp
      · rw [hp]; exact hlt
      · exact lt_trans hlt (hq p hp)
    · rw [if_neg (by rw [heq]; exact lt_irrefl _), if_pos heq]
      exact List.Pairwise.cons hq hrest
    · rw [if_neg (not_lt.mpr hgt.le), if_neg hgt.ne']
      refine List.Pairwise.cons ?_ (ih hrest)
      intro p hp
      rcases mem_map_insert hp with h' | h'
      · rw [h']; exact hgt
      · exact hq p h'

theorem map_sorted_set (k : K) (b : B) {m : List (K × B)}
    (hs : map_sorted m) : map_sorted (map_set k b m) := by
  rw [map_sorted, map_set, List.pairwise_map]
  refine hs.imp ?_
  intro p q h
  dsimp only
  split <;> split <;> simpa using h

theorem mem_map_erase {p : K × B} {k : K} {m : List (K × B)}
    (h : p ∈ map_erase k m) : p ∈ m := by
  induction m with
  | nil => simp [map_erase] at h
  | cons q rest ih =>
    simp only [map_erase] at h
    by_cases hq : q.1 = k
    · rw [if_pos hq] at h
      exact List.mem_cons.mpr (Or.inr (ih h))
    · rw [if_neg hq] at h
      rcases List.mem_cons.mp h with h | h
      · exact List.mem_cons.mpr (Or.inl h)
      · exact List.mem_cons.mpr (Or.inr (ih h))

theorem map_sorted_erase (k : K) {m : List (K × B)}
    (hs : map_sorted m) : map_sorted (map_erase k m) := by
  induction m with
  | nil => simpa [map_erase] using hs
  | cons q rest ih =>
    obtain ⟨hq, hrest⟩ := List.pairwise_cons.mp hs
    simp only [map_erase]
    by_cases h : q.1 = k
    · rw [if_pos h]
      exact ih hrest
    · rw [if_neg h]
      exact List.Pairwise.cons (fun p hp => hq p (mem_map_erase hp)) (ih hrest)

/-- Two strictly key-sorted association lists with the same lookups are
the same list. -/
theorem map_ext {m₁ m₂ : List (K × B)} (h₁ : map_sorted m₁) (h₂ : map_sorted m₂)
    (hfind : ∀ k, map_find k m₁ = map_find k m₂) : m₁ = m₂ := by
  induction m₁ generalizing m₂ with
  | nil =>
    cases m₂ with
    | nil => rfl
    | cons q rest =>
      have hcontra := hfind q.1
      simp [map_find] at hcontra
  | cons p r₁ ih =>
    cases m₂ with
    | nil =>
      have hcontra := hfind p.1
      simp [map_find] at hcontra
    | cons q r₂ =>
      obtain ⟨hp, hr₁⟩ := List.pairwise_cons.mp h₁
      obtain ⟨hq, hr₂⟩ := List.pairwise_cons.mp h₂
      have hkeys : p.1 = q.1 := by
        rcases lt_trichotomy p.1 q.1 with hlt | heq | hgt
        · exfalso
          have hnone : map_find p.1 (q :: r₂) = none := by
            apply map_find_eq_none
            intro x hx
            rcases List.mem_cons.mp hx with hx | hx
            · rw [hx]; exact hlt.ne'
            · exact (lt_trans hlt (hq x hx)).ne'
          have hcontra := hfind p.1
          rw [hnone] at hcontra
          simp [map_find] at hcontra
        · exact heq
        · exfalso
          have hnone : map_find q.1 (p :: r₁) = none := by
            apply map_find_eq_none
            intro x hx
            rcases List.mem_cons.mp hx with hx | hx
            · rw [hx]; exact hgt.ne'
            · exact (lt_trans hgt (hp x hx)).ne'
          have hcontra := (hfind q.1).symm
          rw [hnone] at hcontra
          simp [map_find] at hcontra
      have hvals : p.2 = q.2 := by
        have hcontra := hfind p.1
        simp [map_find, hkeys] at hcontra
        exact hcontra
      have htails : ∀ k, map_find k r₁ = map_find k r₂ := by
        intro k
        by_cases hk : k = p.1
        · have hn₁ : map_find k r₁ = none := by
            apply map_find_eq_none
            intro x hx
            rw [hk]
            exact (hp x hx).ne'
          have hn₂ : map_find k r₂ = none := by
            apply map_find_eq_none
            intro x hx
            rw [hk, hkeys]
            exact (hq x hx).ne'
          rw [hn₁, hn₂]
        · have heq := hfind k
          have h1 : p.1 ≠ k := fun hh => hk hh.symm
          have h2 : q.1 ≠ k := fun hh => hk (hkeys.trans hh).symm
          simpa [map_find, h1, h2] using heq
      have hpq : p = q := by
        cases p; cases q
        simp only [Prod.mk.injEq]
        exact ⟨hkeys, hvals⟩
      rw [hpq, ih hr₁ hr₂ htails]

end MapLemmas

/-! ### The canonical key map and the push normal form -/

section CanonLemmas

variable {K V : Type} [LinearOrder K]

theorem valuesOf_nil (k : K) : valuesOf k ([] : List (K × V)) = [] := rfl

theorem valuesOf_append (k : K) (l r : List (K × V)) :
    valuesOf k (l ++ r) = valuesOf k l ++ valuesOf k r := by
  simp [valuesOf, List.filter_append]

theorem valuesOf_cons (k k' : K) (v : V) (l : List (K × V)) :
    valuesOf k ((k', v) :: l) =
      if k' = k then v :: valuesOf k l else valuesOf k l := by
  by_cases h : k' = k <;> simp [valuesOf, List.filter, h]

theorem valuesOf_concat (k k' : K) (v : V) (l : List (K × V)) :
    valuesOf k (l ++ [(k', v)]) =
      valuesOf k l ++ if k' = k then [v] else [] := by
  rw [valuesOf_append]
  by_cases h : k' = k <;> simp [valuesOf, List.filter, h]

theorem valuesOf_eq_nil_of_not_mem {k : K} {l : List (K × V)}
    (h : k ∉ l.map Prod.fst) : valuesOf k l = [] := by
  induction l with
  | nil => rfl
  | cons p rest ih =>
    have h1 : p.1 ≠ k := by
      intro he
      exact h (by simp [he])
    have h2 : k ∉ rest.map Prod.fst := fun hc => h (by simp [hc])
    obtain ⟨k', v⟩ := p
    rw [valuesOf_cons, if_neg h1]
    exact ih h2

theorem canonMap_nil : canonMap ([] : List (K × V)) = [] := rfl

theorem canonMap_concat (l : List (K × V)) (k : K) (v : V) :
    canonMap (l ++ [(k, v)]) = pushBucket k v (canonMap l) := by
  simp [canonMap, List.foldl_append]

theorem map_sorted_canonMap (l : List (K × V)) : map_sorted (canonMap l) := by
  induction l using List.reverseRecOn with
  | nil => simp [canonMap, map_sorted]
  | append_singleton l p ih =>
    obtain ⟨k, v⟩ := p
    rw [canonMap_concat, pushBucket]
    cases hfind : map_find k (canonMap l) with
    | none => exact map_sorted_insert ih
    | some b => exact map_sorted_set _ _ ih

theorem list_isEmpty_iff {α : Type} {l : List α} : l.isEmpty = true ↔ l = [] := by
  cases l <;> simp

theorem isEmpty_false_of_ne_nil {α : Type} {l : List α} (h : l ≠ []) :
    l.isEmpty = false := by
  cases l with
  | nil => exact absurd rfl h
  | cons a t => rfl

theorem map_find_canonMap (l : List (K × V)) :
    ∀ k, map_find k (canonMap l) =
      if (valuesOf k l).isEmpty then none else some (valuesOf k l) := by
  induction l using List.reverseRecOn with
  | nil =>
    intro k
    simp [canonMap, map_find, valuesOf]
  | append_singleton l p ih =>
    obtain ⟨k', v⟩ := p
    intro k
    rw [canonMap_concat, pushBucket, valuesOf_concat]
    cases hfind : map_find k' (canonMap l) with
    | none =>
      have hv' : valuesOf k' l = [] := by
        by_cases hc : valuesOf k' l = []
        · exact hc
        · have h2 := ih k'
          rw [hfind, isEmpty_false_of_ne_nil hc] at h2
          simp at h2
      rw [map_find_insert _ hfind]
      by_cases h : k = k'
      · subst h
        simp [hv']
      · have h' : k' ≠ k := fun hh => h hh.symm
        rw [if_neg h, if_neg h', List.append_nil, ih k]
    | some b =>
      have hb : b = valuesOf k' l := by
        have h2 := ih k'
        rw [hfind] at h2
        by_cases hc : valuesOf k' l = []
        · simp [hc] at h2
        · rw [isEmpty_false_of_ne_nil hc] at h2
          simpa using h2
      have hne : valuesOf k' l ≠ [] := by
        intro hc
        have h2 := ih k'
        rw [hfind] at h2
        simp [hc] at h2
      rw [map_find_set]
      by_cases h : k = k'
      · subst h
        rw [if_pos rfl, hfind]
        have hne2 : valuesOf k l ++ [v] ≠ [] := by simp
        simp [hb, isEmpty_false_of_ne_nil hne2]
      · have h' : k' ≠ k := fun hh => h hh.symm
        rw [if_neg h, if_neg h', List.append_nil, ih k]

theorem pushes_nil : pushes ([] : List (K × V)) = stack_data.empty := rfl

theorem pushes_concat (l : List (K × V)) (k : K) (v : V) :
    pushes (l ++ [(k, v)]) = (pushes l).push k v := by
  simp [pushes, List.foldl_append]

theorem pushes_eq (l : List (K × V)) :
    pushes l = ⟨l, canonMap l⟩ := by
  induction l using List.reverseRecOn with
  | nil => rfl
  | append_singleton l p ih =>
    obtain ⟨k, v⟩ := p
    rw [pushes_concat, ih, canonMap_concat]
    rfl

theorem pushes_stack_list (l : List (K × V)) : (pushes l).stack_list = l := by
  rw [pushes_eq]

theorem pushes_key_map (l : List (K × V)) : (pushes l).key_map = canonMap l := by
  rw [pushes_eq]

theorem inv_pushes (l : List (K × V)) : (pushes l).Inv := by
  rw [stack_data.Inv, pushes_eq]

/-- A storage satisfies the representation invariant exactly when it is
the replay of its own global list. -/
theorem inv_iff_pushes (sd : stack_data K V) :
    sd.Inv ↔ sd = pushes sd.stack_list := by
  rw [stack_data.Inv, pushes_eq]
  constructor
  · intro h
    cases sd
    simp only at h
    rw [h]
  · intro h
    rw [h]

end CanonLemmas

/-! ### The storage operations on the push normal form -/

section OpLemmas

variable {K V : Type} [LinearOrder K]

theorem eraseFirstKey_append_not_mem {k : K} {r : List (K × V)}
    (h : k ∉ r.map Prod.fst) (t : List (K × V)) :
    eraseFirstKey k (r ++ t) = r ++ eraseFirstKey k t := by
  induction r with
  | nil => simp
  | cons p rest ih =>
    have h1 : p.1 ≠ k := fun he => h (by simp [he])
    have h2 : k ∉ rest.map Prod.fst := fun hc => h (by simp [hc])
    simp only [List.cons_append, eraseFirstKey, if_neg h1]
    exact congrArg (List.cons p) (ih h2)

theorem eraseLastKey_decomp (l₁ l₂ : List (K × V)) (k : K) (v : V)
    (h : k ∉ l₂.map Prod.fst) :
    eraseLastKey k (l₁ ++ (k, v) :: l₂) = l₁ ++ l₂ := by
  rw [eraseLastKey]
  have hrev : (l₁ ++ (k, v) :: l₂).reverse = l₂.reverse ++ (k, v) :: l₁.reverse := by
    simp
  have h2 : k ∉ l₂.reverse.map Prod.fst := by simpa using h
  rw [hrev, eraseFirstKey_append_not_mem h2]
  simp [eraseFirstKey]

theorem setFirstKey_append_not_mem {k : K} (nv : V) {r : List (K × V)}
    (h : k ∉ r.map Prod.fst) (t : List (K × V)) :
    setFirstKey k nv (r ++ t) = r ++ setFirstKey k nv t := by
  induction r with
  | nil => simp
  | cons p rest ih =>
    have h1 : p.1 ≠ k := fun he => h (by simp [he])
    have h2 : k ∉ rest.map Prod.fst := fun hc => h (by simp [hc])
    simp only [List.cons_append, setFirstKey, if_neg h1]
    exact congrArg (List.cons p) (ih h2)

theorem setLastKey_decomp (l₁ l₂ : List (K × V)) (k : K) (v nv : V)
    (h : k ∉ l₂.map Prod.fst) :
    setLastKey k nv (l₁ ++ (k, v) :: l₂) = l₁ ++ (k, nv) :: l₂ := by
  rw [setLastKey]
  have hrev : (l₁ ++ (k, v) :: l₂).reverse = l₂.reverse ++ (k, v) :: l₁.reverse := by
    simp
  have h2 : k ∉ l₂.reverse.map Prod.fst := by simpa using h
  rw [hrev, setFirstKey_append_not_mem _ h2]
  simp [setFirstKey]

/-- A key with a live value splits the global list at its last
occurrence. -/
theorem exists_last_occurrence {k : K} {l : List (K × V)}
    (h : valuesOf k l ≠ []) :
    ∃ l₁ v l₂, l = l₁ ++ (k, v) :: l₂ ∧ k ∉ l₂.map Prod.fst := by
  induction l using List.reverseRecOn with
  | nil => simp [valuesOf] at h
  | append_singleton l p ih =>
    obtain ⟨k', v⟩ := p
    by_cases hk : k' = k
    · subst hk
      exact ⟨l, v, [], by simp, by simp⟩
    · have h' : valuesOf k l ≠ [] := by
        rwa [valuesOf_concat, if_neg hk, List.append_nil] at h
      obtain ⟨l₁, v₀, l₂, heq, hnot⟩ := ih h'
      refine ⟨l₁, v₀, l₂ ++ [(k', v)], ?_, ?_⟩
      · rw [heq]; simp
      · simp only [List.map_append, List.mem_append]
        rintro (hc | hc)
        · exact hnot hc
        · simp at hc
          exact hk hc.symm

/-- `pop()` undoes the most recent push: the LIFO law of the global
order. -/
theorem pop_pushes (l : List (K × V)) (k : K) (v : V) :
    (pushes (l ++ [(k, v)])).pop = .ok (pushes l) := by
  have hvne : valuesOf k l ++ [v] ≠ [] := by simp
  have hfind : map_find k (canonMap (l ++ [(k, v)])) = some (valuesOf k l ++ [v]) := by
    rw [map_find_canonMap, valuesOf_concat, if_pos rfl, isEmpty_false_of_ne_nil hvne]
    rfl
  rw [pushes_eq, pushes_eq]
  simp only [stack_data.pop, stack_data.size]
  rw [if_neg (by simp)]
  simp only [List.getLast?_concat, hfind, List.dropLast_concat]
  by_cases hv : valuesOf k l = []
  · have hkm : map_erase k (canonMap (l ++ [(k, v)])) = canonMap l := by
      apply map_ext (map_sorted_erase _ (map_sorted_canonMap _)) (map_sorted_canonMap _)
      intro k'
      rw [map_find_erase]
      by_cases h : k' = k
      · subst h
        rw [if_pos rfl, map_find_canonMap, hv]
        rfl
      · rw [if_neg h, map_find_canonMap, map_find_canonMap, valuesOf_concat,
            if_neg (fun hh : k = k' => h hh.symm), List.append_nil]
  
    rw [hv]
    simp [hkm]
  · have hkm : map_set k (valuesOf k l) (canonMap (l ++ [(k, v)])) = canonMap l := by
      apply map_ext (map_sorted_set _ _ (map_sorted_canonMap _)) (map_sorted_canonMap _)
      intro k'
      rw [map_find_set]
      by_cases h : k' = k
      · subst h
        rw [if_pos rfl, hfind, map_find_canonMap, isEmpty_false_of_ne_nil hv]
        rfl
      · rw [if_neg h, map_find_canonMap, map_find_canonMap, valuesOf_concat,
            if_neg (fun hh : k = k' => h hh.symm), List.append_nil]
    rw [isEmpty_false_of_ne_nil hv]
    simp [hkm]

/-- `pop(k)` removes exactly the last still-live value pushed under `k`,
leaving every other slot in place. -/
theorem popKey_pushes (l₁ l₂ : List (K × V)) (k : K) (v : V)
    (h : k ∉ l₂.map Prod.fst) :
    (pushes (l₁ ++ (k, v) :: l₂)).popKey k = .ok (pushes (l₁ ++ l₂)) := by
  have hv₂ : valuesOf k l₂ = [] := valuesOf_eq_nil_of_not_mem h
  have hvals : valuesOf k (l₁ ++ (k, v) :: l₂) = valuesOf k l₁ ++ [v] := by
    rw [valuesOf_append, valuesOf_cons, if_pos rfl, hv₂]
  have hvne : valuesOf k l₁ ++ [v] ≠ [] := by simp
  have hfind : map_find k (canonMap (l₁ ++ (k, v) :: l₂)) = some (valuesOf k l₁ ++ [v]) := by
    rw [map_find_canonMap, hvals, isEmpty_false_of_ne_nil hvne]
    rfl
  have hvother : ∀ k', k' ≠ k →
      valuesOf k' (l₁ ++ (k, v) :: l₂) = valuesOf k' (l₁ ++ l₂) := by
    intro k' hk'
    rw [valuesOf_append, valuesOf_cons, if_neg (fun hh : k = k' => hk' hh.symm),
        valuesOf_append]
  have hvk : valuesOf k (l₁ ++ l₂) = valuesOf k l₁ := by
    rw [valuesOf_append, hv₂, List.append_nil]
  rw [pushes_eq, pushes_eq]
  simp only [stack_data.popKey, stack_data.size]
  rw [if_neg (by simp)]
  simp only [hfind, List.getLast?_concat, List.dropLast_concat]
  rw [eraseLastKey_decomp _ _ _ _ h]
  by_cases hv : valuesOf k l₁ = []
  · have hkm : map_erase k (canonMap (l₁ ++ (k, v) :: l₂)) = canonMap (l₁ ++ l₂) := by
      apply map_ext (map_sorted_erase _ (map_sorted_canonMap _)) (map_sorted_canonMap _)
      intro k'
      rw [map_find_erase]
      by_cases hh : k' = k
      · subst hh
        rw [if_pos rfl, map_find_canonMap, hvk, hv]
        rfl
      · rw [if_neg hh, map_find_canonMap, map_find_canonMap, hvother k' hh]
    rw [hv]
    simp [hkm]
  · have hkm : map_set k (valuesOf k l₁) (canonMap (l₁ ++ (k, v) :: l₂)) =
        canonMap (l₁ ++ l₂) := by
      apply map_ext (map_sorted_set _ _ (map_sorted_canonMap _)) (map_sorted_canonMap _)
      intro k'
      rw [map_find_set]
      by_cases hh : k' = k
      · subst hh
        rw [if_pos rfl, hfind, map_find_canonMap, hvk, isEmpty_false_of_ne_nil hv]
        rfl
      · rw [if_neg hh, map_find_canonMap, map_find_canonMap, hvother k' hh]
    rw [isEmpty_false_of_ne_nil hv]
    simp [hkm]

/-- `front()` reads the most recent push. -/
theorem front_pushes (l : List (K × V)) (k : K) (v : V) :
    (pushes (l ++ [(k, v)])).front = .ok (k, v) := by
  have hvne : valuesOf k l ++ [v] ≠ [] := by simp
  have hfind : map_find k (canonMap (l ++ [(k, v)])) = some (valuesOf k l ++ [v]) := by
    rw [map_find_canonMap, valuesOf_concat, if_pos rfl, isEmpty_false_of_ne_nil hvne]
    rfl
  rw [pushes_eq]
  simp only [stack_data.front, stack_data.size]
  rw [if_neg (by simp)]
  simp only [List.getLast?_concat, hfind]

/-- `front(k)` reads the last still-live value pushed under `k`. -/
theorem frontKey_pushes (l₁ l₂ : List (K × V)) (k : K) (v : V)
    (h : k ∉ l₂.map Prod.fst) :
    (pushes (l₁ ++ (k, v) :: l₂)).frontKey k = .ok v := by
  have hv₂ : valuesOf k l₂ = [] := valuesOf_eq_nil_of_not_mem h
  have hvals : valuesOf k (l₁ ++ (k, v) :: l₂) = valuesOf k l₁ ++ [v] := by
    rw [valuesOf_append, valuesOf_cons, if_pos rfl, hv₂]
  have hvne : valuesOf k l₁ ++ [v] ≠ [] := by simp
  have hfind : map_find k (canonMap (l₁ ++ (k, v) :: l₂)) = some (valuesOf k l₁ ++ [v]) := by
    rw [map_find_canonMap, hvals, isEmpty_false_of_ne_nil hvne]
    rfl
  rw [pushes_eq]
  simp only [stack_data.frontKey, stack_data.size]
  rw [if_neg (by simp)]
  simp only [hfind, List.getLast?_concat]

theorem pop_nil : (pushes ([] : List (K × V))).pop = .error .empty_container := rfl

theorem popKey_nil (k : K) :
    (pushes ([] : List (K × V))).popKey k = .error .empty_container := rfl

theorem front_nil : (pushes ([] : List (K × V))).front = .error .empty_container := rfl

theorem frontKey_nil (k : K) :
    (pushes ([] : List (K × V))).frontKey k = .error .empty_container := rfl

theorem popKey_not_found {l : List (K × V)} (k : K) (hl : l ≠ [])
    (hv : valuesOf k l = []) : (pushes l).popKey k = .error .key_not_found := by
  rw [pushes_eq]
  simp only [stack_data.popKey, stack_data.size]
  rw [if_neg (by simpa using hl), map_find_canonMap, hv]
  rfl

theorem frontKey_not_found {l : List (K × V)} (k : K) (hl : l ≠ [])
    (hv : valuesOf k l = []) : (pushes l).frontKey k = .error .key_not_found := by
  rw [pushes_eq]
  simp only [stack_data.frontKey, stack_data.size]
  rw [if_neg (by simpa using hl), map_find_canonMap, hv]
  rfl

/-- A write through the global mutable front replaces the most recent
value in both cross-referenced structures. -/
theorem writeFront_pushes (l : List (K × V)) (k : K) (v nv : V) :
    (pushes (l ++ [(k, v)])).writeFront nv = pushes (l ++ [(k, nv)]) := by
  have hvne : valuesOf k l ++ [v] ≠ [] := by simp
  have hfind : map_find k (canonMap (l ++ [(k, v)])) = some (valuesOf k l ++ [v]) := by
    rw [map_find_canonMap, valuesOf_concat, if_pos rfl, isEmpty_false_of_ne_nil hvne]
    rfl
  rw [pushes_eq, pushes_eq]
  simp only [stack_data.writeFront, List.getLast?_concat, hfind, List.dropLast_concat]
  have hkm : map_set k (valuesOf k l ++ [nv]) (canonMap (l ++ [(k, v)])) =
      canonMap (l ++ [(k, nv)]) := by
    apply map_ext (map_sorted_set _ _ (map_sorted_canonMap _)) (map_sorted_canonMap _)
    intro k'
    rw [map_find_set]
    by_cases h : k' = k
    · subst h
      have hvne2 : valuesOf k' l ++ [nv] ≠ [] := by simp
      rw [if_pos rfl, hfind, map_find_canonMap, valuesOf_concat, if_pos rfl,
          isEmpty_false_of_ne_nil hvne2]
      rfl
    · have h' : ¬ (k = k') := fun hh => h hh.symm
      rw [if_neg h, map_find_canonMap, map_find_canonMap]
      simp only [valuesOf_concat, if_neg h', List.append_nil]
  rw [hkm]

/-- A write through the per-key mutable front replaces the last still-live
value of that key in both structures. -/
theorem writeFrontKey_pushes (l₁ l₂ : List (K × V)) (k : K) (v nv : V)
    (h : k ∉ l₂.map Prod.fst) :
    (pushes (l₁ ++ (k, v) :: l₂)).writeFrontKey k nv =
      pushes (l₁ ++ (k, nv) :: l₂) := by
  have hv₂ : valuesOf k l₂ = [] := valuesOf_eq_nil_of_not_mem h
  have hvals : valuesOf k (l₁ ++ (k, v) :: l₂) = valuesOf k l₁ ++ [v] := by
    rw [valuesOf_append, valuesOf_cons, if_pos rfl, hv₂]
  have hvne : valuesOf k l₁ ++ [v] ≠ [] := by simp
  have hfind : map_find k (canonMap (l₁ ++ (k, v) :: l₂)) = some (valuesOf k l₁ ++ [v]) := by
    rw [map_find_canonMap, hvals, isEmpty_false_of_ne_nil hvne]
    rfl
  rw [pushes_eq, pushes_eq]
  simp only [stack_data.writeFrontKey, hfind, List.dropLast_concat]
  rw [setLastKey_decomp _ _ _ _ _ h]
  have hkm : map_set k (valuesOf k l₁ ++ [nv]) (canonMap (l₁ ++ (k, v) :: l₂)) =
      canonMap (l₁ ++ (k, nv) :: l₂) := by
    apply map_ext (map_sorted_set _ _ (map_sorted_canonMap _)) (map_sorted_canonMap _)
    intro k'
    rw [map_find_set]
    by_cases hh : k' = k
    · subst hh
      have hvne2 : valuesOf k' l₁ ++ (nv :: valuesOf k' l₂) ≠ [] := by simp
      rw [if_pos rfl, hfind, map_find_canonMap, valuesOf_append, valuesOf_cons,
          if_pos rfl, isEmpty_false_of_ne_nil hvne2, hv₂]
      rfl
    · have he' : ¬ (k = k') := fun he => hh he.symm
      rw [if_neg hh, map_find_canonMap, map_find_canonMap]
      simp only [valuesOf_append, valuesOf_cons, if_neg he']
  rw [hkm]

end OpLemmas

/-! ### The deep copy replay and reachability -/

section ReplayLemmas

variable {K V : Type} [LinearOrder K]

/-- The replay loop invariant: having already replayed the prefix `pre`
with the per-key cursors at the per-key counts of `pre`, the loop finishes
the suffix and lands exactly on the source. -/
theorem replay_go_ok (l : List (K × V)) :
    ∀ (suf : List (K × V)), ∀ (pre : List (K × V)) (nv : List (K × Nat)),
      l = pre ++ suf →
      (∀ k, (map_find k nv).getD 0 = (valuesOf k pre).length) →
      replay_go (pushes l) suf (pushes pre) nv = some (pushes l) := by
  intro suf
  induction suf with
  | nil =>
    intro pre nv hl hnv
    rw [List.append_nil] at hl
    rw [replay_go, ← hl]
  | cons p rest ih =>
    intro pre nv hl hnv
    obtain ⟨k, v⟩ := p
    have hvl : valuesOf k l = valuesOf k pre ++ v :: valuesOf k rest := by
      rw [hl, valuesOf_append, valuesOf_cons, if_pos rfl]
    have hvne : valuesOf k l ≠ [] := by rw [hvl]; simp
    have hfind : map_find k (pushes l).key_map = some (valuesOf k l) := by
      rw [pushes_key_map, map_find_canonMap, isEmpty_false_of_ne_nil hvne]
      rfl
    have hget : (valuesOf k l)[(valuesOf k pre).length]? = some v := by
      rw [hvl, List.getElem?_append_right (le_refl _)]
      simp
    cases hnvk : map_find k nv with
    | none =>
      have hpre : valuesOf k pre = [] := by
        have hx := hnv k
        rw [hnvk] at hx
        simpa using List.length_eq_zero.mp hx.symm
      have hget0 : (valuesOf k l)[(0 : Nat)]? = some v := by
        have hx := hget
        rwa [hpre] at hx
      simp only [replay_go, hfind, hnvk, Option.getD_none, hget0]
      rw [← pushes_concat]
      refine ih (pre ++ [(k, v)]) (map_insert k 1 nv) (by rw [hl]; simp) ?_
      intro k''
      rw [map_find_insert _ hnvk]
      by_cases hk : k'' = k
      · rw [if_pos hk, hk, valuesOf_concat, if_pos rfl, hpre]
        simp
      · rw [if_neg hk, valuesOf_concat, if_neg (fun he : k = k'' => hk he.symm),
            List.append_nil]
        exact hnv k''
    | some n =>
      have hn : n = (valuesOf k pre).length := by
        have hx := hnv k
        rw [hnvk] at hx
        simpa using hx
      have hget2 : (valuesOf k l)[n]? = some v := by rw [hn]; exact hget
      simp only [replay_go, hfind, hnvk, Option.getD_some, hget2]
      rw [← pushes_concat]
      refine ih (pre ++ [(k, v)]) (map_set k (n + 1) nv) (by rw [hl]; simp) ?_
      intro k''
      rw [map_find_set]
      by_cases hk : k'' = k
      · rw [if_pos hk, hnvk, hk, valuesOf_concat, if_pos rfl]
        simp [hn]
      · rw [if_neg hk, valuesOf_concat, if_neg (fun he : k = k'' => hk he.symm),
            List.append_nil]
        exact hnv k''

/-- The deep copy constructor reproduces a replayed storage exactly. -/
theorem copy_replay_pushes (l : List (K × V)) :
    copy_replay (pushes l) = some (pushes l) := by
  rw [copy_replay, pushes_stack_list]
  exact replay_go_ok l l [] [] rfl (fun k => by simp [map_find, valuesOf])

theorem copy_replay_of_inv {sd : stack_data K V} (h : sd.Inv) :
    copy_replay sd = some sd := by
  have he := (inv_iff_pushes sd).mp h
  calc copy_replay sd = copy_replay (pushes sd.stack_list) := by rw [← he]
    _ = some (pushes sd.stack_list) := copy_replay_pushes _
    _ = some sd := by rw [← he]

theorem copy_ctor_of_inv {sd : stack_data K V} (h : sd.Inv) :
    copy_ctor sd = sd := by
  rw [copy_ctor, copy_replay_of_inv h]
  rfl

/-- Every reachable storage is the replay of its own global list: the
cross-referencing invariant holds in every state the operations can
build. -/
theorem reachable_pushes {sd : stack_data K V} (h : Reachable sd) :
    sd = pushes sd.stack_list := by
  induction h with
  | empty => rfl
  | @push k v sd0 hr ih =>
    calc stack_data.push k v sd0 = stack_data.push k v (pushes sd0.stack_list) := by
          rw [← ih]
      _ = pushes (sd0.stack_list ++ [(k, v)]) := (pushes_concat _ _ _).symm
      _ = pushes ((stack_data.push k v sd0).stack_list) := rfl
  | @pop sd0 sd' hr heq ih =>
    rcases List.eq_nil_or_concat sd0.stack_list with hnil | ⟨l', a, hdec⟩
    · rw [ih, hnil, pop_nil] at heq
      simp at heq
    · obtain ⟨k0, v0⟩ := a
      rw [List.concat_eq_append] at hdec
      rw [ih, hdec, pop_pushes] at heq
      cases heq
      rw [pushes_stack_list]
  | @popKey k0 sd0 sd' hr heq ih =>
    by_cases hv : valuesOf k0 sd0.stack_list = []
    · rcases List.eq_nil_or_concat sd0.stack_list with hnil | ⟨l', a, hdec⟩
      · rw [ih, hnil, popKey_nil] at heq
        simp at heq
      · rw [List.concat_eq_append] at hdec
        have hnn : sd0.stack_list ≠ [] := by rw [hdec]; simp
        rw [ih, popKey_not_found k0 hnn hv] at heq
        simp at heq
    · obtain ⟨l₁, v₀, l₂, hdec, hnot⟩ := exists_last_occurrence hv
      rw [ih, hdec, popKey_pushes _ _ _ _ hnot] at heq
      cases heq
      rw [pushes_stack_list]
  | @clearData sd0 hr ih => rfl
  | @writeFront nv sd0 hr ih =>
    rcases List.eq_nil_or_concat sd0.stack_list with hnil | ⟨l', a, hdec⟩
    · have hid : sd0.writeFront nv = sd0 := by
        rw [stack_data.writeFront, hnil]
        rfl
      rw [hid]
      exact ih
    · obtain ⟨k0, v0⟩ := a
      rw [List.concat_eq_append] at hdec
      rw [ih, hdec, writeFront_pushes, pushes_stack_list]
  | @writeFrontKey k0 nv sd0 hr ih =>
    cases hfind0 : map_find k0 sd0.key_map with
    | none =>
      have hid : sd0.writeFrontKey k0 nv = sd0 := by
        rw [stack_data.writeFrontKey, hfind0]
      rw [hid]
      exact ih
    | some b =>
      have hv : valuesOf k0 sd0.stack_list ≠ [] := by
        intro hc
        rw [ih, pushes_key_map, map_find_canonMap, hc] at hfind0
        simp at hfind0
      obtain ⟨l₁, v₀, l₂, hdec, hnot⟩ := exists_last_occurrence hv
      rw [ih, hdec, writeFrontKey_pushes _ _ _ _ _ hnot, pushes_stack_list]

/-- Reachable storages satisfy the representation invariant. -/
theorem reachable_inv {sd : stack_data K V} (h : Reachable sd) : sd.Inv :=
  (inv_iff_pushes sd).mpr (reachable_pushes h)

end ReplayLemmas

/-! ### World-level helper lemmas -/

section WorldLemmas

variable {K V : Type} [LinearOrder K]

theorem getElem?_append_left' {α : Type} {l r : List α} {i : Nat} (h : i < l.length) :
    (l ++ r)[i]? = l[i]? := by
  rw [List.getElem?_append, if_pos h]

theorem mem_of_getElem?' {α : Type} {l : List α} {i : Nat} {a : α}
    (h : l[i]? = some a) : a ∈ l := by
  obtain ⟨hlt, he⟩ := List.getElem?_eq_some.mp h
  rw [← he]
  exact List.getElem_mem hlt

theorem lt_length_of_getElem? {α : Type} {l : List α} {i : Nat} {a : α}
    (h : l[i]? = some a) : i < l.length :=
  (List.getElem?_eq_some.mp h).1

theorem set_getElem?_self {α : Type} :
    ∀ (l : List α) (i : Nat) (a : α), l[i]? = some a → l.set i a = l := by
  intro l
  induction l with
  | nil => intro i a h; simp at h
  | cons x xs ih =>
    intro i a h
    cases i with
    | zero =>
      simp at h
      rw [List.set_cons_zero, h]
    | succ i =>
      simp at h
      rw [List.set_cons_succ, ih i a h]

theorem countP_two_le {α : Type} (p : α → Bool) :
    ∀ (l : List α) (i j : Nat) (a b : α), i ≠ j → l[i]? = some a → l[j]? = some b →
      p a = true → p b = true → 2 ≤ l.countP p := by
  intro l
  induction l with
  | nil => intro i j a b _ hi _ _ _; simp at hi
  | cons x xs ih =>
    intro i j a b hij hi hj hpa hpb
    cases i with
    | zero =>
      cases j with
      | zero => exact absurd rfl hij
      | succ j =>
        simp at hi
        have hx : p x = true := by rw [hi]; exact hpa
        have h1 : 0 < xs.countP p :=
          List.countP_pos_iff.mpr ⟨b, mem_of_getElem?' (by simpa using hj), hpb⟩
        rw [List.countP_cons_of_pos _ _ hx]
        omega
    | succ i =>
      cases j with
      | zero =>
        simp at hj
        have hx : p x = true := by rw [hj]; exact hpb
        have h1 : 0 < xs.countP p :=
          List.countP_pos_iff.mpr ⟨a, mem_of_getElem?' (by simpa using hi), hpa⟩
        rw [List.countP_cons_of_pos _ _ hx]
        omega
      | succ j =>
        have h2 := ih i j a b (fun h => hij (by rw [h])) (by simpa using hi)
          (by simpa using hj) hpa hpb
        calc 2 ≤ xs.countP p := h2
          _ ≤ (x :: xs).countP p := by rw [List.countP_cons]; omega

theorem countP_set_untouched {α : Type} (p : α → Bool) :
    ∀ (l : List α) (i : Nat) (a b : α), l[i]? = some b →
      (∀ x ∈ l, p x = false) → p a = true → (l.set i a).countP p = 1 := by
  intro l
  induction l with
  | nil => intro i a b hi _ _; simp at hi
  | cons x xs ih =>
    intro i a b hi hall hpa
    cases i with
    | zero =>
      rw [List.set_cons_zero, List.countP_cons_of_pos _ _ hpa]
      have h0 : xs.countP p = 0 :=
        List.countP_eq_zero.mpr (fun y hy => by rw [hall y (by simp [hy])]; simp)
      omega
    | succ i =>
      rw [List.set_cons_succ]
      have hx : p x = false := hall x (by simp)
      rw [List.countP_cons_of_neg _ _ (by rw [hx]; simp)]
      exact ih i a b (by simpa using hi) (fun y hy => hall y (by simp [hy])) hpa

theorem countP_set_preserve {α : Type} (p : α → Bool) :
    ∀ (l : List α) (i : Nat) (a b : α), l[i]? = some b → p a = p b →
      (l.set i a).countP p = l.countP p := by
  intro l
  induction l with
  | nil => intro i a b hi _; simp at hi
  | cons x xs ih =>
    intro i a b hi hpab
    cases i with
    | zero =>
      simp at hi
      rw [List.set_cons_zero, List.countP_cons, List.countP_cons, hpab, hi]
    | succ i =>
      rw [List.set_cons_succ, List.countP_cons, List.countP_cons,
        ih i a b (by simpa using hi) hpab]

theorem refOf_eq_some {w : world K V} {i d : Nat} :
    refOf w i = some d ↔ ∃ h, w.handles[i]? = some h ∧ h.dataRef = some d := by
  rw [refOf]
  cases hh : w.handles[i]? with
  | none => simp
  | some h => simp [hh]

theorem use_count_pos {w : world K V} {i d : Nat} {h : handle_t}
    (hh : w.handles[i]? = some h) (hd : h.dataRef = some d) : 1 ≤ use_count d w := by
  rw [use_count]
  have : 0 < w.handles.countP (fun h => decide (h.dataRef = some d)) :=
    List.countP_pos_iff.mpr ⟨h, mem_of_getElem?' hh, by simp [hd]⟩
  omega

theorem refOf_ne_of_not_shared {w : world K V} {i j d : Nat} (hij : i ≠ j)
    (hi : refOf w i = some d) (hns : ¬ 1 < use_count d w) : refOf w j ≠ some d := by
  intro hj
  obtain ⟨h1, hh1, hd1⟩ := refOf_eq_some.mp hi
  obtain ⟨h2, hh2, hd2⟩ := refOf_eq_some.mp hj
  exact hns (countP_two_le _ w.handles i j h1 h2 hij hh1 hh2
    (by simp [hd1]) (by simp [hd2]))

theorem obsH_set_heap_ne {w : world K V} {j d : Nat} (x : stack_data K V)
    (hne : refOf w j ≠ some d) :
    obsH ⟨w.heap.set d x, w.handles⟩ j = obsH w j := by
  rw [obsH, obsH, storageOf, storageOf]
  have hre : refOf (⟨w.heap.set d x, w.handles⟩ : world K V) j = refOf w j := rfl
  rw [hre]
  cases hr : refOf w j with
  | none => rfl
  | some e =>
    have hed : d ≠ e := fun he => hne (by rw [he]; exact hr)
    simp [List.getElem?_set_ne hed]

theorem obsH_append_heap_valid {w : world K V} {j : Nat} (x : stack_data K V)
    (hval : WValid w) :
    obsH ⟨w.heap ++ [x], w.handles⟩ j = obsH w j := by
  rw [obsH, obsH, storageOf, storageOf]
  have hre : refOf (⟨w.heap ++ [x], w.handles⟩ : world K V) j = refOf w j := rfl
  rw [hre]
  cases hr : refOf w j with
  | none => rfl
  | some e =>
    obtain ⟨h, hh, hd⟩ := refOf_eq_some.mp hr
    have he : e < w.heap.length := hval h (mem_of_getElem?' hh) e hd
    simp [getElem?_append_left' he]

theorem obsH_set_handle_ne {w : world K V} {i j : Nat} (h' : handle_t) (hij : i ≠ j) :
    obsH ⟨w.heap, w.handles.set i h'⟩ j = obsH w j := by
  rw [obsH, obsH, storageOf, storageOf, refOf, refOf]
  simp [List.getElem?_set_ne hij]

theorem obsH_alloc_set_ne {w : world K V} {i j : Nat} (x : stack_data K V) (h' : handle_t)
    (hij : i ≠ j) (hval : WValid w) :
    obsH ⟨w.heap ++ [x], w.handles.set i h'⟩ j = obsH w j := by
  have h1 : obsH ⟨w.heap ++ [x], w.handles.set i h'⟩ j
      = obsH (⟨w.heap ++ [x], w.handles⟩ : world K V) j := by
    rw [obsH, obsH, storageOf, storageOf, refOf, refOf]
    simp [List.getElem?_set_ne hij]
  rw [h1, obsH_append_heap_valid x hval]

theorem obsH_set_both_ne {w : world K V} {i j d : Nat} (x : stack_data K V) (h' : handle_t)
    (hij : i ≠ j) (hne : refOf w j ≠ some d) :
    obsH ⟨w.heap.set d x, w.handles.set i h'⟩ j = obsH w j := by
  have h1 : obsH ⟨w.heap.set d x, w.handles.set i h'⟩ j
      = obsH (⟨w.heap.set d x, w.handles⟩ : world K V) j := by
    rw [obsH, obsH, storageOf, storageOf, refOf, refOf]
    simp [List.getElem?_set_ne hij]
  rw [h1, obsH_set_heap_ne x hne]

end WorldLemmas

section WorldOpLemmas

variable {K V : Type} [LinearOrder K]

theorem obs_worldPushF_ne (fp : Option push_fail) (i j : Nat) (k : K) (v : V)
    (w : world K V) (hij : i ≠ j) (hval : WValid w) :
    obsH (worldPushF fp i k v w).1 j = obsH w j := by
  cases hh : w.handles[i]? with
  | none => simp only [worldPushF, hh]
  | some h =>
    cases hd : h.dataRef with
    | none => simp only [worldPushF, hh, hd]
    | some d =>
      cases hsd : w.heap[d]? with
      | none => simp only [worldPushF, hh, hd, hsd]
      | some sd =>
        by_cases hsh : 1 < use_count d w
        · cases hpf : (copy_ctor sd).pushF fp k v with
          | mk sd' e =>
            cases e with
            | none =>
              simp only [worldPushF, hh, hd, hsd, if_pos hsh, hpf]
              exact obsH_alloc_set_ne sd' _ hij hval
            | some ex =>
              simp only [worldPushF, hh, hd, hsd, if_pos hsh, hpf]
        · have hrefi : refOf w i = some d := refOf_eq_some.mpr ⟨h, hh, hd⟩
          have hne := refOf_ne_of_not_shared hij hrefi hsh
          cases hpf : sd.pushF fp k v with
          | mk sd' e =>
            cases e with
            | none =>
              simp only [worldPushF, hh, hd, hsd, if_neg hsh, hpf]
              exact obsH_set_both_ne sd' _ hij hne
            | some ex =>
              simp only [worldPushF, hh, hd, hsd, if_neg hsh, hpf]
              exact obsH_set_heap_ne sd' hne

theorem obs_worldPop_ne (i j : Nat) (w : world K V) (hij : i ≠ j) (hval : WValid w) :
    obsH (worldPop i w).1 j = obsH w j := by
  cases hh : w.handles[i]? with
  | none => simp only [worldPop, hh]
  | some h =>
    cases hd : h.dataRef with
    | none => simp only [worldPop, hh, hd]
    | some d =>
      cases hsd : w.heap[d]? with
      | none => simp only [worldPop, hh, hd, hsd]
      | some sd =>
        by_cases hsh : 1 < use_count d w
        · cases hpf : (copy_ctor sd).pop with
          | error e => simp only [worldPop, hh, hd, hsd, if_pos hsh, hpf]
          | ok sd' =>
            simp only [worldPop, hh, hd, hsd, if_pos hsh, hpf]
            exact obsH_alloc_set_ne sd' _ hij hval
        · have hrefi : refOf w i = some d := refOf_eq_some.mpr ⟨h, hh, hd⟩
          have hne := refOf_ne_of_not_shared hij hrefi hsh
          cases hpf : sd.pop with
          | error e => simp only [worldPop, hh, hd, hsd, if_neg hsh, hpf]
          | ok sd' =>
            simp only [worldPop, hh, hd, hsd, if_neg hsh, hpf]
            exact obsH_set_both_ne sd' _ hij hne

theorem obs_worldPopKey_ne (i j : Nat) (k : K) (w : world K V) (hij : i ≠ j)
    (hval : WValid w) :
    obsH (worldPopKey i k w).1 j = obsH w j := by
  cases hh : w.handles[i]? with
  | none => simp only [worldPopKey, hh]
  | some h =>
    cases hd : h.dataRef with
    | none => simp only [worldPopKey, hh, hd]
    | some d =>
      cases hsd : w.heap[d]? with
      | none => simp only [worldPopKey, hh, hd, hsd]
      | some sd =>
        by_cases hsh : 1 < use_count d w
        · cases hpf : (copy_ctor sd).popKey k with
          | error e => simp only [worldPopKey, hh, hd, hsd, if_pos hsh, hpf]
          | ok sd' =>
            simp only [worldPopKey, hh, hd, hsd, if_pos hsh, hpf]
            exact obsH_alloc_set_ne sd' _ hij hval
        · have hrefi : refOf w i = some d := refOf_eq_some.mpr ⟨h, hh, hd⟩
          have hne := refOf_ne_of_not_shared hij hrefi hsh
          cases hpf : sd.popKey k with
          | error e => simp only [worldPopKey, hh, hd, hsd, if_neg hsh, hpf]
          | ok sd' =>
            simp only [worldPopKey, hh, hd, hsd, if_neg hsh, hpf]
            exact obsH_set_both_ne sd' _ hij hne

theorem obs_worldClear_ne (i j : Nat) (w : world K V) (hij : i ≠ j) (hval : WValid w) :
    obsH (worldClear i w).1 j = obsH w j := by
  cases hh : w.handles[i]? with
  | none => simp only [worldClear, hh]
  | some h =>
    cases hd : h.dataRef with
    | none => simp only [worldClear, hh, hd]
    | some d =>
      cases hsd : w.heap[d]? with
      | none => simp only [worldClear, hh, hd, hsd]
      | some sd =>
        by_cases hsh : 1 < use_count d w
        · simp only [worldClear, hh, hd, hsd, if_pos hsh]
          exact obsH_alloc_set_ne _ _ hij hval
        · have hrefi : refOf w i = some d := refOf_eq_some.mpr ⟨h, hh, hd⟩
          have hne := refOf_ne_of_not_shared hij hrefi hsh
          simp only [worldClear, hh, hd, hsd, if_neg hsh]
          exact obsH_set_both_ne _ _ hij hne

theorem obs_worldFront_ne (i j : Nat) (w : world K V) (hij : i ≠ j) (hval : WValid w) :
    obsH (worldFront i w).1 j = obsH w j := by
  cases hh : w.handles[i]? with
  | none => simp only [worldFront, hh]
  | some h =>
    cases hd : h.dataRef with
    | none => simp only [worldFront, hh, hd]
    | some d =>
      cases hsd : w.heap[d]? with
      | none => simp only [worldFront, hh, hd, hsd]
      | some sd =>
        by_cases hsh : 1 < use_count d w
        · simp only [worldFront, hh, hd, hsd, if_pos hsh]
          exact obsH_alloc_set_ne _ _ hij hval
        · simp only [worldFront, hh, hd, hsd, if_neg hsh]
          exact obsH_set_handle_ne _ hij

theorem obs_worldFrontKey_ne (i j : Nat) (k : K) (w : world K V) (hij : i ≠ j)
    (hval : WValid w) :
    obsH (worldFrontKey i k w).1 j = obsH w j := by
  cases hh : w.handles[i]? with
  | none => simp only [worldFrontKey, hh]
  | some h =>
    cases hd : h.dataRef with
    | none => simp only [worldFrontKey, hh, hd]
    | some d =>
      cases hsd : w.heap[d]? with
      | none => simp only [worldFrontKey, hh, hd, hsd]
      | some sd =>
        by_cases hsh : 1 < use_count d w
        · simp only [worldFrontKey, hh, hd, hsd, if_pos hsh]
          exact obsH_alloc_set_ne _ _ hij hval
        · simp only [worldFrontKey, hh, hd, hsd, if_neg hsh]
          exact obsH_set_handle_ne _ hij

theorem obs_worldWriteFront_ne (i j : Nat) (nv : V) (w : world K V) (hij : i ≠ j)
    (hval : WValid w) :
    obsH (worldWriteFront i nv w) j = obsH w j := by
  cases hh : w.handles[i]? with
  | none => simp only [worldWriteFront, worldFront, hh]
  | some h =>
    cases hd : h.dataRef with
    | none => simp only [worldWriteFront, worldFront, hh, hd]
    | some d =>
      cases hsd : w.heap[d]? with
      | none => simp only [worldWriteFront, worldFront, hh, hd, hsd]
      | some sd =>
        have hi_lt : i < w.handles.length := lt_length_of_getElem? hh
        by_cases hsh : 1 < use_count d w
        · cases hfr : (copy_ctor sd).front with
          | error e =>
            simp only [worldWriteFront, worldFront, hh, hd, hsd, if_pos hsh, hfr]
            exact obsH_alloc_set_ne _ _ hij hval
          | ok kv =>
            simp only [worldWriteFront, worldFront, hh, hd, hsd, if_pos hsh, hfr]
            have hrefi : refOf (⟨w.heap ++ [copy_ctor sd],
                w.handles.set i ⟨some w.heap.length, true⟩⟩ : world K V) i
                = some w.heap.length := by
              rw [refOf]
              rw [List.getElem?_set_self hi_lt]
              rfl
            simp only [hrefi, List.getElem?_concat_length]
            have hrj : refOf (⟨w.heap ++ [copy_ctor sd],
                w.handles.set i ⟨some w.heap.length, true⟩⟩ : world K V) j = refOf w j := by
              rw [refOf, refOf, List.getElem?_set_ne hij]
            have hnej : refOf (⟨w.heap ++ [copy_ctor sd],
                w.handles.set i ⟨some w.heap.length, true⟩⟩ : world K V) j
                ≠ some w.heap.length := by
              rw [hrj]
              cases hr : refOf w j with
              | none => simp
              | some e =>
                obtain ⟨h2, hh2, hd2⟩ := refOf_eq_some.mp hr
                have he : e < w.heap.length := hval h2 (mem_of_getElem?' hh2) e hd2
                simp
                omega
            exact (obsH_set_heap_ne _ hnej).trans (obsH_alloc_set_ne _ _ hij hval)
        · cases hfr : sd.front with
          | error e =>
            simp only [worldWriteFront, worldFront, hh, hd, hsd, if_neg hsh, hfr]
            exact obsH_set_handle_ne _ hij
          | ok kv =>
            simp only [worldWriteFront, worldFront, hh, hd, hsd, if_neg hsh, hfr]
            have hrefi : refOf (⟨w.heap,
                w.handles.set i ⟨some d, true⟩⟩ : world K V) i = some d := by
              rw [refOf]
              rw [List.getElem?_set_self hi_lt]
              rfl
            simp only [hrefi, hsd]
            have hrefiw : refOf w i = some d := refOf_eq_some.mpr ⟨h, hh, hd⟩
            have hne := refOf_ne_of_not_shared hij hrefiw hsh
            have hnej : refOf (⟨w.heap,
                w.handles.set i ⟨some d, true⟩⟩ : world K V) j ≠ some d := by
              rw [refOf, List.getElem?_set_ne hij]
              exact hne
            exact (obsH_set_heap_ne _ hnej).trans (obsH_set_handle_ne _ hij)

theorem obs_worldWriteFrontKey_ne (i j : Nat) (k : K) (nv : V) (w : world K V)
    (hij : i ≠ j) (hval : WValid w) :
    obsH (worldWriteFrontKey i k nv w) j = obsH w j := by
  cases hh : w.handles[i]? with
  | none => simp only [worldWriteFrontKey, worldFrontKey, hh]
  | some h =>
    cases hd : h.dataRef with
    | none => simp only [worldWriteFrontKey, worldFrontKey, hh, hd]
    | some d =>
      cases hsd : w.heap[d]? with
      | none => simp only [worldWriteFrontKey, worldFrontKey, hh, hd, hsd]
      | some sd =>
        have hi_lt : i < w.handles.length := lt_length_of_getElem? hh
        by_cases hsh : 1 < use_count d w
        · cases hfr : (copy_ctor sd).frontKey k with
          | error e =>
            simp only [worldWriteFrontKey, worldFrontKey, hh, hd, hsd, if_pos hsh, hfr]
            exact obsH_alloc_set_ne _ _ hij hval
          | ok v0 =>
            simp only [worldWriteFrontKey, worldFrontKey, hh, hd, hsd, if_pos hsh, hfr]
            have hrefi : refOf (⟨w.heap ++ [copy_ctor sd],
                w.handles.set i ⟨some w.heap.length, true⟩⟩ : world K V) i
                = some w.heap.length := by
              rw [refOf]
              rw [List.getElem?_set_self hi_lt]
              rfl
            simp only [hrefi, List.getElem?_concat_length]
            have hrj : refOf (⟨w.heap ++ [copy_ctor sd],
                w.handles.set i ⟨some w.heap.length, true⟩⟩ : world K V) j = refOf w j := by
              rw [refOf, refOf, List.getElem?_set_ne hij]
            have hnej : refOf (⟨w.heap ++ [copy_ctor sd],
                w.handles.set i ⟨some w.heap.length, true⟩⟩ : world K V) j
                ≠ some w.heap.length := by
              rw [hrj]
              cases hr : refOf w j with
              | none => simp
              | some e =>
                obtain ⟨h2, hh2, hd2⟩ := refOf_eq_some.mp hr
                have he : e < w.heap.length := hval h2 (mem_of_getElem?' hh2) e hd2
                simp
                omega
            exact (obsH_set_heap_ne _ hnej).trans (obsH_alloc_set_ne _ _ hij hval)
        · cases hfr : sd.frontKey k with
          | error e =>
            simp only [worldWriteFrontKey, worldFrontKey, hh, hd, hsd, if_neg hsh, hfr]
            exact obsH_set_handle_ne _ hij
          | ok v0 =>
            simp only [worldWriteFrontKey, worldFrontKey, hh, hd, hsd, if_neg hsh, hfr]
            have hrefi : refOf (⟨w.heap,
                w.handles.set i ⟨some d, true⟩⟩ : world K V) i = some d := by
              rw [refOf]
              rw [List.getElem?_set_self hi_lt]
              rfl
            simp only [hrefi, hsd]
            have hrefiw : refOf w i = some d := refOf_eq_some.mpr ⟨h, hh, hd⟩
            have hne := refOf_ne_of_not_shared hij hrefiw hsh
            have hnej : refOf (⟨w.heap,
                w.handles.set i ⟨some d, true⟩⟩ : world K V) j ≠ some d := by
              rw [refOf, List.getElem?_set_ne hij]
              exact hne
            exact (obsH_set_heap_ne _ hnej).trans (obsH_set_handle_ne _ hij)

end WorldOpLemmas

/-! ### Exception behaviour of push, and failure classification -/

section FailureLemmas

variable {K V : Type} [LinearOrder K]

/-- Whatever step of `stack_data::push` throws, the catch-and-rollback
leaves the storage exactly as it was. -/
theorem pushF_rollback (fp : Option push_fail) (k : K) (v : V) (sd : stack_data K V)
    (h : (sd.pushF fp k v).2 ≠ none) : (sd.pushF fp k v).1 = sd := by
  cases fp with
  | none =>
    cases hf : map_find k sd.key_map <;>
      simp [stack_data.pushF, hf] at h
  | some pf =>
    cases pf <;> cases hf : map_find k sd.key_map <;>
      simp [stack_data.pushF, hf, List.dropLast_concat] at h ⊢

/-- An exception-free run of `stack_data::push` performs exactly the
successful push. -/
theorem pushF_success (k : K) (v : V) (sd : stack_data K V) :
    sd.pushF none k v = (sd.push k v, none) := by
  cases hf : map_find k sd.key_map <;>
    simp [stack_data.pushF, stack_data.push, pushBucket, hf]

/-- A failed `stack::push` leaves the whole world unchanged: the handle
was never repointed, the in-place rollback restored an exclusively owned
block, and a freshly cloned block is dropped unreferenced. -/
theorem worldPushF_error_eq (fp : Option push_fail) (i : Nat) (k : K) (v : V)
    (w : world K V) (h : (worldPushF fp i k v w).2 ≠ none) :
    (worldPushF fp i k v w).1 = w := by
  cases hh : w.handles[i]? with
  | none => simp only [worldPushF, hh]
  | some hdl =>
    cases hd : hdl.dataRef with
    | none => simp only [worldPushF, hh, hd]
    | some d =>
      cases hsd : w.heap[d]? with
      | none => simp only [worldPushF, hh, hd, hsd]
      | some sd =>
        by_cases hsh : 1 < use_count d w
        · cases hpf : (copy_ctor sd).pushF fp k v with
          | mk sd' e =>
            cases e with
            | none =>
              simp only [worldPushF, hh, hd, hsd, if_pos hsh, hpf] at h
              exact absurd rfl h
            | some ex => simp only [worldPushF, hh, hd, hsd, if_pos hsh, hpf]
        · cases hpf : sd.pushF fp k v with
          | mk sd' e =>
            cases e with
            | none =>
              simp only [worldPushF, hh, hd, hsd, if_neg hsh, hpf] at h
              exact absurd rfl h
            | some ex =>
              simp only [worldPushF, hh, hd, hsd, if_neg hsh, hpf]
              have hroll : sd' = sd := by
                have hr := pushF_rollback fp k v sd (by rw [hpf]; simp)
                rw [hpf] at hr
                exact hr
              rw [hroll, set_getElem?_self _ _ _ hsd]

theorem pop_of_empty {sd : stack_data K V} (hinv : sd.Inv)
    (hnil : sd.stack_list = []) : sd.pop = .error .empty_container := by
  have hp := (inv_iff_pushes sd).mp hinv
  rw [hp, hnil]
  exact pop_nil

theorem pop_of_ne_empty {sd : stack_data K V} (hinv : sd.Inv)
    (hne : sd.stack_list ≠ []) : ∃ sd', sd.pop = .ok sd' := by
  have hp := (inv_iff_pushes sd).mp hinv
  rcases List.eq_nil_or_concat sd.stack_list with hnil | ⟨l', a, hdec⟩
  · exact absurd hnil hne
  · obtain ⟨k0, v0⟩ := a
    rw [List.concat_eq_append] at hdec
    exact ⟨pushes l', by rw [hp, hdec]; exact pop_pushes l' k0 v0⟩

theorem front_of_empty {sd : stack_data K V} (hinv : sd.Inv)
    (hnil : sd.stack_list = []) : sd.front = .error .empty_container := by
  have hp := (inv_iff_pushes sd).mp hinv
  rw [hp, hnil]
  exact front_nil

theorem front_of_ne_empty {sd : stack_data K V} (hinv : sd.Inv)
    (hne : sd.stack_list ≠ []) : ∃ kv, sd.front = .ok kv := by
  have hp := (inv_iff_pushes sd).mp hinv
  rcases List.eq_nil_or_concat sd.stack_list with hnil | ⟨l', a, hdec⟩
  · exact absurd hnil hne
  · obtain ⟨k0, v0⟩ := a
    rw [List.concat_eq_append] at hdec
    exact ⟨(k0, v0), by rw [hp, hdec]; exact front_pushes l' k0 v0⟩

theorem popKey_of_empty {sd : stack_data K V} (hinv : sd.Inv)
    (hnil : sd.stack_list = []) (k : K) : sd.popKey k = .error .empty_container := by
  have hp := (inv_iff_pushes sd).mp hinv
  rw [hp, hnil]
  exact popKey_nil k

theorem popKey_of_absent {sd : stack_data K V} (hinv : sd.Inv)
    (hne : sd.stack_list ≠ []) {k : K} (hv : valuesOf k sd.stack_list = []) :
    sd.popKey k = .error .key_not_found := by
  have hp := (inv_iff_pushes sd).mp hinv
  rw [hp]
  exact popKey_not_found k hne hv

theorem popKey_of_present {sd : stack_data K V} (hinv : sd.Inv)
    {k : K} (hv : valuesOf k sd.stack_list ≠ []) : ∃ sd', sd.popKey k = .ok sd' := by
  have hp := (inv_iff_pushes sd).mp hinv
  obtain ⟨l₁, v₀, l₂, hdec, hnot⟩ := exists_last_occurrence hv
  exact ⟨pushes (l₁ ++ l₂), by rw [hp, hdec]; exact popKey_pushes l₁ l₂ k v₀ hnot⟩

theorem frontKey_of_empty {sd : stack_data K V} (hinv : sd.Inv)
    (hnil : sd.stack_list = []) (k : K) : sd.frontKey k = .error .empty_container := by
  have hp := (inv_iff_pushes sd).mp hinv
  rw [hp, hnil]
  exact frontKey_nil k

theorem frontKey_of_absent {sd : stack_data K V} (hinv : sd.Inv)
    (hne : sd.stack_list ≠ []) {k : K} (hv : valuesOf k sd.stack_list = []) :
    sd.frontKey k = .error .key_not_found := by
  have hp := (inv_iff_pushes sd).mp hinv
  rw [hp]
  exact frontKey_not_found k hne hv

theorem frontKey_of_present {sd : stack_data K V} (hinv : sd.Inv)
    {k : K} (hv : valuesOf k sd.stack_list ≠ []) : ∃ v, sd.frontKey k = .ok v := by
  have hp := (inv_iff_pushes sd).mp hinv
  obtain ⟨l₁, v₀, l₂, hdec, hnot⟩ := exists_last_occurrence hv
  exact ⟨v₀, by rw [hp, hdec]; exact frontKey_pushes l₁ l₂ k v₀ hnot⟩

end FailureLemmas

/-! ### Remaining world-level failure helpers -/

section WorldFailure

variable {K V : Type} [LinearOrder K]

/-- A failing `stack::pop()` throws before any mutation and before
`assume_state`; the world is untouched. -/
theorem worldPop_error_eq (i : Nat) (w : world K V)
    (h : (worldPop i w).2 ≠ none) : (worldPop i w).1 = w := by
  cases hh : w.handles[i]? with
  | none => simp only [worldPop, hh]
  | some hdl =>
    cases hd : hdl.dataRef with
    | none => simp only [worldPop, hh, hd]
    | some d =>
      cases hsd : w.heap[d]? with
      | none => simp only [worldPop, hh, hd, hsd]
      | some sd =>
        by_cases hsh : 1 < use_count d w
        · cases hpf : (copy_ctor sd).pop with
          | error e => simp only [worldPop, hh, hd, hsd, if_pos hsh, hpf]
          | ok sd' =>
            simp only [worldPop, hh, hd, hsd, if_pos hsh, hpf] at h
            exact absurd rfl h
        · cases hpf : sd.pop with
          | error e => simp only [worldPop, hh, hd, hsd, if_neg hsh, hpf]
          | ok sd' =>
            simp only [worldPop, hh, hd, hsd, if_neg hsh, hpf] at h
            exact absurd rfl h

/-- A failing `stack::pop(k)` leaves the world untouched. -/
theorem worldPopKey_error_eq (i : Nat) (k : K) (w : world K V)
    (h : (worldPopKey i k w).2 ≠ none) : (worldPopKey i k w).1 = w := by
  cases hh : w.handles[i]? with
  | none => simp only [worldPopKey, hh]
  | some hdl =>
    cases hd : hdl.dataRef with
    | none => simp only [worldPopKey, hh, hd]
    | some d =>
      cases hsd : w.heap[d]? with
      | none => simp only [worldPopKey, hh, hd, hsd]
      | some sd =>
        by_cases hsh : 1 < use_count d w
        · cases hpf : (copy_ctor sd).popKey k with
          | error e => simp only [worldPopKey, hh, hd, hsd, if_pos hsh, hpf]
          | ok sd' =>
            simp only [worldPopKey, hh, hd, hsd, if_pos hsh, hpf] at h
            exact absurd rfl h
        · cases hpf : sd.popKey k with
          | error e => simp only [worldPopKey, hh, hd, hsd, if_neg hsh, hpf]
          | ok sd' =>
            simp only [worldPopKey, hh, hd, hsd, if_neg hsh, hpf] at h
            exact absurd rfl h

end WorldFailure

/-! ### The claims -/

section Claims

variable {K V : Type} [LinearOrder K]

/-- C2: push is atomic under exceptions.  Whichever step of `push` fails
(slot allocation, the value copy, bucket allocation, the bucket append, or
the map insert — the oracle `fp`), the storage after the call equals the
storage before it, both for the bare `stack_data::push` and through the
`stack::push` copy-on-write wrapper (no element added, no size or count
change, no new key); and the exception-free run performs exactly the
successful push. -/
theorem C2_push_atomic :
    (∀ (fp : Option push_fail) (k : K) (v : V) (sd : stack_data K V),
        (sd.pushF fp k v).2 ≠ none → (sd.pushF fp k v).1 = sd)
    ∧ (∀ (fp : Option push_fail) (i : Nat) (k : K) (v : V) (w : world K V),
        (worldPushF fp i k v w).2 ≠ none → (worldPushF fp i k v w).1 = w)
    ∧ (∀ (k : K) (v : V) (sd : stack_data K V),
        sd.pushF none k v = (sd.push k v, none)) :=
  ⟨pushF_rollback, worldPushF_error_eq, pushF_success⟩

theorem C2_push_atomic_witness :
    ((pushes [((1 : Nat), (2 : Nat))]).pushF (some push_fail.bucket_push) 1 7).1
        = pushes [((1 : Nat), (2 : Nat))]
    ∧ (worldPushF (some push_fail.map_insert) 0 2 9
        (⟨[pushes [((1 : Nat), (2 : Nat))]], [⟨some 0, false⟩]⟩ : world Nat Nat)).1
        = ⟨[pushes [((1 : Nat), (2 : Nat))]], [⟨some 0, false⟩]⟩
    ∧ (stack_data.empty : stack_data Nat Nat).pushF none 5 6
        = (stack_data.empty.push 5 6, none) :=
  ⟨C2_push_atomic.1 (some push_fail.bucket_push) 1 7 _ (by decide),
   C2_push_atomic.2.1 (some push_fail.map_insert) 0 2 9 _ (by decide),
   C2_push_atomic.2.2 5 6 _⟩

/-- C3: LIFO consistency.  Popping after a sequence of pushes under
arbitrary mixed keys removes exactly the most recent push (so iterating
`pop()` returns the pushes in reverse order), and `pop(k)` removes exactly
the most recently pushed still-live value under `k`, leaving the relative
order of every other live entry (global and per-key) unchanged: the result
is the replay of the same sequence without that one entry. -/
theorem C3_lifo :
    (∀ (l : List (K × V)) (k : K) (v : V),
        (pushes (l ++ [(k, v)])).pop = .ok (pushes l))
    ∧ (∀ (l₁ l₂ : List (K × V)) (k : K) (v : V), k ∉ l₂.map Prod.fst →
        (pushes (l₁ ++ (k, v) :: l₂)).popKey k = .ok (pushes (l₁ ++ l₂))) :=
  ⟨pop_pushes, popKey_pushes⟩

theorem C3_lifo_witness :
    (pushes [((1 : Nat), (2 : Nat)), (2, 5)]).pop = .ok (pushes [(1, 2)])
    ∧ (pushes [((1 : Nat), (2 : Nat)), (2, 5)]).popKey 1 = .ok (pushes [(2, 5)]) :=
  ⟨C3_lifo.1 [(1, 2)] 2 5, C3_lifo.2 [] [(2, 5)] 1 2 (by decide)⟩

/-- C5: failure taxonomy and check order.  On a valid storage, `pop()` and
`front()` fail (with the empty-container error) exactly when the stack is
empty; `pop(k)` and `front(k)` fail with the empty-container error when
the whole stack is empty — that check runs first, for every key — and
otherwise fail with the key-not-found error exactly when `k` has no
currently-live value.  At the handle layer a failing pop (either form)
leaves the world unchanged. -/
theorem C5_failure_taxonomy :
    (∀ sd : stack_data K V, sd.Inv →
      (sd.stack_list = [] →
        sd.pop = .error .empty_container ∧ sd.front = .error .empty_container ∧
        (∀ k : K, sd.popKey k = .error .empty_container ∧
          sd.frontKey k = .error .empty_container)) ∧
      (sd.stack_list ≠ [] →
        (∃ sd', sd.pop = .ok sd') ∧ (∃ kv, sd.front = .ok kv) ∧
        (∀ k : K, valuesOf k sd.stack_list = [] →
          sd.popKey k = .error .key_not_found ∧
          sd.frontKey k = .error .key_not_found) ∧
        (∀ k : K, valuesOf k sd.stack_list ≠ [] →
          (∃ sd', sd.popKey k = .ok sd') ∧ (∃ v, sd.frontKey k = .ok v))))
    ∧ (∀ (i : Nat) (w : world K V),
        ((worldPop i w).2 ≠ none → (worldPop i w).1 = w) ∧
        (∀ k : K, (worldPopKey i k w).2 ≠ none → (worldPopKey i k w).1 = w)) := by
  constructor
  · intro sd hinv
    constructor
    · intro hnil
      exact ⟨pop_of_empty hinv hnil, front_of_empty hinv hnil,
        fun k => ⟨popKey_of_empty hinv hnil k, frontKey_of_empty hinv hnil k⟩⟩
    · intro hne
      refine ⟨pop_of_ne_empty hinv hne, front_of_ne_empty hinv hne, ?_, ?_⟩
      · exact fun k hv => ⟨popKey_of_absent hinv hne hv, frontKey_of_absent hinv hne hv⟩
      · exact fun k hv => ⟨popKey_of_present hinv hv, frontKey_of_present hinv hv⟩
  · intro i w
    exact ⟨worldPop_error_eq i w, fun k => worldPopKey_error_eq i k w⟩

theorem C5_failure_taxonomy_witness :
    (stack_data.empty : stack_data Nat Nat).pop = .error .empty_container
    ∧ (pushes [((1 : Nat), (2 : Nat))]).popKey 3 = .error .key_not_found
    ∧ (worldPop 0 (⟨[(stack_data.empty : stack_data Nat Nat)],
        [⟨some 0, false⟩]⟩ : world Nat Nat)).1
        = ⟨[stack_data.empty], [⟨some 0, false⟩]⟩ :=
  ⟨((C5_failure_taxonomy.1 stack_data.empty (by decide)).1 rfl).1,
   ((((C5_failure_taxonomy.1 (pushes [((1 : Nat), (2 : Nat))]) (by decide)).2
      (by decide)).2.2.1) 3 (by decide)).1,
   (C5_failure_taxonomy.2 0 _).1 (by decide)⟩

/-- C6: deep-copy exactness.  On every storage reachable by any sequence
of operations, the replaying deep copy constructor terminates without
touching a dead reference and rebuilds the very same storage — so every
query (size, every count, both fronts, key iteration, and the entire
sequence of results under repeated pop) is indistinguishable between the
copy and the original. -/
theorem C6_deep_copy_exact (sd : stack_data K V) (h : Reachable sd) :
    copy_replay sd = some sd :=
  copy_replay_of_inv (reachable_inv h)

theorem C6_deep_copy_exact_witness :
    copy_replay (pushes [((1 : Nat), (2 : Nat)), (1, 3), (2, 5)])
      = some (pushes [((1 : Nat), (2 : Nat)), (1, 3), (2, 5)]) :=
  C6_deep_copy_exact _
    (Reachable.push 2 5 (Reachable.push 1 3 (Reachable.push 1 2 Reachable.empty)))

/-- C7: count correctness.  On every reachable stack state, `count k`
(a `key_map` lookup returning the bucket size, or 0 when the key is
absent) equals the number of currently-live values pushed under `k` — the
values of `k` still present in the global order; in particular it is 0
exactly when `k` has no live value. -/
theorem C7_count_correct (sd : stack_data K V) (h : Reachable sd) (k : K) :
    sd.count k = (valuesOf k sd.stack_list).length := by
  have hp := reachable_pushes h
  conv_lhs => rw [hp]
  simp only [stack_data.count, pushes_key_map, map_find_canonMap]
  by_cases hv : valuesOf k sd.stack_list = []
  · rw [hv]
    simp
  · rw [isEmpty_false_of_ne_nil hv]
    rfl

theorem C7_count_correct_witness :
    (pushes [((1 : Nat), (2 : Nat)), (1, 3), (2, 5)]).count 1
      = (valuesOf 1 (pushes [((1 : Nat), (2 : Nat)), (1, 3), (2, 5)]).stack_list).length :=
  C7_count_correct _
    (Reachable.push 2 5 (Reachable.push 1 3 (Reachable.push 1 2 Reachable.empty))) 1

end Claims

section ClaimsB

variable {K V : Type} [LinearOrder K]

/-- C1: copy independence of handles.  A copy-constructed handle (the new
index `w.handles.length`) and a copy-assigned handle observe exactly the
source's storage, with a fresh clean flag, and the source still observes
it too; and every mutating operation (push, either pop, clear, or a write
through a mutable front accessor) applied through one handle leaves the
observable contents of every other handle unchanged — the storage equality
determines size, every count, both fronts and the key iteration. -/
theorem C1_copy_independence :
    (∀ (w : world K V) (i : Nat) (h : handle_t) (d : Nat) (sd : stack_data K V),
        w.handles[i]? = some h → h.dataRef = some d → w.heap[d]? = some sd → sd.Inv →
        storageOf (worldCopy i w) w.handles.length = some sd ∧
        taintH (worldCopy i w) w.handles.length = some false ∧
        storageOf (worldCopy i w) i = some sd)
    ∧ (∀ (w : world K V) (tgt i : Nat) (h : handle_t) (d : Nat) (sd : stack_data K V),
        w.handles[i]? = some h → h.dataRef = some d → w.heap[d]? = some sd → sd.Inv →
        tgt < w.handles.length →
        storageOf (worldAssign tgt i w) tgt = some sd ∧
        taintH (worldAssign tgt i w) tgt = some false)
    ∧ (∀ (w : world K V) (m : mop K V) (i j : Nat), i ≠ j → WValid w →
        obsH (applyMop m i w) j = obsH w j) := by
  refine ⟨?_, ?_, ?_⟩
  · intro w i h d sd hh hd hsd hinv
    have hi_lt : i < w.handles.length := lt_length_of_getElem? hh
    have hd_lt : d < w.heap.length := lt_length_of_getElem? hsd
    have hcopy : copy_ctor sd = sd := copy_ctor_of_inv hinv
    cases hu : h.is_unsharable with
    | true =>
      have hw' : worldCopy i w = ⟨w.heap ++ [copy_ctor sd],
          w.handles ++ [⟨some w.heap.length, false⟩]⟩ := by
        simp [worldCopy, hh, hu, hd, hsd]
      rw [hw']
      refine ⟨?_, ?_, ?_⟩
      · simp [storageOf, refOf, List.getElem?_concat_length, hcopy]
      · simp [taintH, List.getElem?_concat_length]
      · simp [storageOf, refOf, getElem?_append_left' hi_lt,
          getElem?_append_left' hd_lt, hh, hd, hsd]
    | false =>
      have hw' : worldCopy i w = ⟨w.heap, w.handles ++ [⟨h.dataRef, false⟩]⟩ := by
        simp only [worldCopy, hh, hu]
        rfl
      rw [hw']
      refine ⟨?_, ?_, ?_⟩
      · simp [storageOf, refOf, List.getElem?_concat_length, hd, hsd]
      · simp [taintH, List.getElem?_concat_length]
      · simp [storageOf, refOf, getElem?_append_left' hi_lt, hh, hd, hsd]
  · intro w tgt i h d sd hh hd hsd hinv htgt
    have hd_lt : d < w.heap.length := lt_length_of_getElem? hsd
    have hcopy : copy_ctor sd = sd := copy_ctor_of_inv hinv
    cases hu : h.is_unsharable with
    | true =>
      have hw' : worldAssign tgt i w = ⟨w.heap ++ [copy_ctor sd],
          w.handles.set tgt ⟨some w.heap.length, false⟩⟩ := by
        simp [worldAssign, hh, hu, hd, hsd]
      rw [hw']
      constructor
      · simp [storageOf, refOf, List.getElem?_set_self htgt,
          List.getElem?_concat_length, hcopy]
      · simp [taintH, List.getElem?_set_self htgt]
    | false =>
      have hw' : worldAssign tgt i w = ⟨w.heap,
          w.handles.set tgt ⟨h.dataRef, false⟩⟩ := by
        simp only [worldAssign, hh, hu]
        rfl
      rw [hw']
      constructor
      · simp [storageOf, refOf, List.getElem?_set_self htgt, hd, hsd]
      · simp [taintH, List.getElem?_set_self htgt]
  · intro w m i j hij hval
    cases m with
    | push k v => exact obs_worldPushF_ne none i j k v w hij hval
    | pop => exact obs_worldPop_ne i j w hij hval
    | popKey k => exact obs_worldPopKey_ne i j k w hij hval
    | clearOp => exact obs_worldClear_ne i j w hij hval
    | writeFront nv => exact obs_worldWriteFront_ne i j nv w hij hval
    | writeFrontKey k nv => exact obs_worldWriteFrontKey_ne i j k nv w hij hval

theorem C1_copy_independence_witness :
    storageOf (worldCopy 0 (⟨[pushes [((1 : Nat), (2 : Nat))]],
        [⟨some 0, false⟩]⟩ : world Nat Nat)) 1 = some (pushes [((1 : Nat), (2 : Nat))])
    ∧ storageOf (worldAssign 1 0 (⟨[pushes [((1 : Nat), (2 : Nat))]],
        [⟨some 0, false⟩, ⟨none, false⟩]⟩ : world Nat Nat)) 1
        = some (pushes [((1 : Nat), (2 : Nat))])
    ∧ obsH (applyMop (mop.push 7 7) 0 (⟨[pushes [((1 : Nat), (2 : Nat))]],
        [⟨some 0, false⟩, ⟨some 0, false⟩]⟩ : world Nat Nat)) 1
        = obsH (⟨[pushes [((1 : Nat), (2 : Nat))]],
        [⟨some 0, false⟩, ⟨some 0, false⟩]⟩ : world Nat Nat) 1 :=
  ⟨(C1_copy_independence.1 (⟨[pushes [((1 : Nat), (2 : Nat))]],
      [⟨some 0, false⟩]⟩ : world Nat Nat) 0 ⟨some 0, false⟩ 0 _ rfl rfl rfl (by decide)).1,
   (C1_copy_independence.2.1 (⟨[pushes [((1 : Nat), (2 : Nat))]],
      [⟨some 0, false⟩, ⟨none, false⟩]⟩ : world Nat Nat) 1 0 ⟨some 0, false⟩ 0 _
      rfl rfl rfl (by decide) (by decide)).1,
   C1_copy_independence.2.2 (⟨[pushes [((1 : Nat), (2 : Nat))]],
      [⟨some 0, false⟩, ⟨some 0, false⟩]⟩ : world Nat Nat) (mop.push 7 7) 0 1
      (by decide) (by decide)⟩

/-- C4 counterexample: the claim says push leaves the Tainted flag
unchanged, but `stack::push` runs `assume_state(make_copy_if_needed(false))`,
which stores `false` into `is_unsharable` unconditionally: a handle that is
Tainted before a push is Clean after it. -/
theorem C4_counterexample :
    taintH (⟨[pushes [((1 : Nat), (2 : Nat))]],
        [⟨some 0, true⟩]⟩ : world Nat Nat) 0 = some true
    ∧ taintH (worldPushF none 0 1 7 (⟨[pushes [((1 : Nat), (2 : Nat))]],
        [⟨some 0, true⟩]⟩ : world Nat Nat)).1 0 = some false := by
  constructor
  · rfl
  · decide

/-- C4 (amended): push, pop and pop(key) do not preserve the Tainted
flag — every successful run of these operations stores the mark `false`
into the handle (`make_copy_if_needed(false)` followed by
`assume_state`), so a flag set by a mutable front accessor survives only
until the next mutating operation on that handle. -/
theorem C4_flag_reset (w : world K V) (i : Nat) :
    (∀ (k : K) (v : V), (worldPushF none i k v w).2 = none →
        taintH (worldPushF none i k v w).1 i = some false)
    ∧ ((worldPop i w).2 = none → taintH (worldPop i w).1 i = some false)
    ∧ (∀ k : K, (worldPopKey i k w).2 = none →
        taintH (worldPopKey i k w).1 i = some false) := by
  refine ⟨?_, ?_, ?_⟩
  · intro k v hok
    cases hh : w.handles[i]? with
    | none => 
      simp only [worldPushF, hh] at hok
      exact Option.noConfusion hok
    | some hdl =>
      have hi_lt : i < w.handles.length := lt_length_of_getElem? hh
      cases hd : hdl.dataRef with
      | none => 
        simp only [worldPushF, hh, hd] at hok
        exact Option.noConfusion hok
      | some d =>
        cases hsd : w.heap[d]? with
        | none => 
          simp only [worldPushF, hh, hd, hsd] at hok
          exact Option.noConfusion hok
        | some sd =>
          by_cases hsh : 1 < use_count d w
          · cases hpf : (copy_ctor sd).pushF none k v with
            | mk sd' e =>
              cases e with
              | some ex => 
                simp only [worldPushF, hh, hd, hsd, if_pos hsh, hpf] at hok
                exact Option.noConfusion hok
              | none =>
                simp only [worldPushF, hh, hd, hsd, if_pos hsh, hpf]
                simp [taintH, List.getElem?_set_self hi_lt]
          · cases hpf : sd.pushF none k v with
            | mk sd' e =>
              cases e with
              | some ex => 
                simp only [worldPushF, hh, hd, hsd, if_neg hsh, hpf] at hok
                exact Option.noConfusion hok
              | none =>
                simp only [worldPushF, hh, hd, hsd, if_neg hsh, hpf]
                simp [taintH, List.getElem?_set_self hi_lt]
  · intro hok
    cases hh : w.handles[i]? with
    | none => 
      simp only [worldPop, hh] at hok
      exact Option.noConfusion hok
    | some hdl =>
      have hi_lt : i < w.handles.length := lt_length_of_getElem? hh
      cases hd : hdl.dataRef with
      | none => 
        simp only [worldPop, hh, hd] at hok
        exact Option.noConfusion hok
      | some d =>
        cases hsd : w.heap[d]? with
        | none => 
          simp only [worldPop, hh, hd, hsd] at hok
          exact Option.noConfusion hok
        | some sd =>
          by_cases hsh : 1 < use_count d w
          · cases hpf : (copy_ctor sd).pop with
            | error e => 
              simp only [worldPop, hh, hd, hsd, if_pos hsh, hpf] at hok
              exact Option.noConfusion hok
            | ok sd' =>
              simp only [worldPop, hh, hd, hsd, if_pos hsh, hpf]
              simp [taintH, List.getElem?_set_self hi_lt]
          · cases hpf : sd.pop with
            | error e => 
              simp only [worldPop, hh, hd, hsd, if_neg hsh, hpf] at hok
              exact Option.noConfusion hok
            | ok sd' =>
              simp only [worldPop, hh, hd, hsd, if_neg hsh, hpf]
              simp [taintH, List.getElem?_set_self hi_lt]
  · intro k hok
    cases hh : w.handles[i]? with
    | none => 
      simp only [worldPopKey, hh] at hok
      exact Option.noConfusion hok
    | some hdl =>
      have hi_lt : i < w.handles.length := lt_length_of_getElem? hh
      cases hd : hdl.dataRef with
      | none => 
        simp only [worldPopKey, hh, hd] at hok
        exact Option.noConfusion hok
      | some d =>
        cases hsd : w.heap[d]? with
        | none => 
          simp only [worldPopKey, hh, hd, hsd] at hok
          exact Option.noConfusion hok
        | some sd =>
          by_cases hsh : 1 < use_count d w
          · cases hpf : (copy_ctor sd).popKey k with
            | error e => 
              simp only [worldPopKey, hh, hd, hsd, if_pos hsh, hpf] at hok
              exact Option.noConfusion hok
            | ok sd' =>
              simp only [worldPopKey, hh, hd, hsd, if_pos hsh, hpf]
              simp [taintH, List.getElem?_set_self hi_lt]
          · cases hpf : sd.popKey k with
            | error e => 
              simp only [worldPopKey, hh, hd, hsd, if_neg hsh, hpf] at hok
              exact Option.noConfusion hok
            | ok sd' =>
              simp only [worldPopKey, hh, hd, hsd, if_neg hsh, hpf]
              simp [taintH, List.getElem?_set_self hi_lt]

theorem C4_flag_reset_witness :
    taintH (worldPushF none 0 5 5 (⟨[pushes [((1 : Nat), (2 : Nat))]],
        [⟨some 0, true⟩]⟩ : world Nat Nat)).1 0 = some false :=
  (C4_flag_reset (⟨[pushes [((1 : Nat), (2 : Nat))]],
    [⟨some 0, true⟩]⟩ : world Nat Nat) 0).1 5 5 (by decide)

end ClaimsB

section ClaimsC

variable {K V : Type} [LinearOrder K]

/-- C8: clear semantics.  After `clear()` the handle reports size 0 and
count 0 for every key, and its Tainted flag is `false`; every other handle
keeps its observable contents; and when the storage was shared, the handle
is repointed at a freshly allocated empty block (the old block is not
cloned, not cleared, and the fresh block is aliased by nobody — no
previous reference equals the new block's address). -/
theorem C8_clear_semantics (w : world K V) (i : Nat) (h : handle_t) (d : Nat)
    (sd : stack_data K V) (hh : w.handles[i]? = some h) (hd : h.dataRef = some d)
    (hsd : w.heap[d]? = some sd) (hval : WValid w) :
    sizeH (worldClear i w).1 i = some 0
    ∧ (∀ k : K, countH (worldClear i w).1 i k = some 0)
    ∧ taintH (worldClear i w).1 i = some false
    ∧ (∀ j : Nat, j ≠ i → obsH (worldClear i w).1 j = obsH w j)
    ∧ (1 < use_count d w →
        refOf (worldClear i w).1 i = some w.heap.length
        ∧ (worldClear i w).1.heap[w.heap.length]? = some stack_data.empty
        ∧ (∀ j : Nat, refOf w j ≠ some w.heap.length)) := by
  have hi_lt : i < w.handles.length := lt_length_of_getElem? hh
  have hd_lt : d < w.heap.length := lt_length_of_getElem? hsd
  have hfresh : ∀ j : Nat, refOf w j ≠ some w.heap.length := by
    intro j hj
    obtain ⟨h2, hh2, hd2⟩ := refOf_eq_some.mp hj
    have := hval h2 (mem_of_getElem?' hh2) _ hd2
    omega
  by_cases hsh : 1 < use_count d w
  · have hw' : (worldClear i w).1 = ⟨w.heap ++ [stack_data.empty],
        w.handles.set i ⟨some w.heap.length, false⟩⟩ := by
      simp only [worldClear, hh, hd, hsd, if_pos hsh]
    refine ⟨?_, fun k => ?_, ?_,
      fun j hj => obs_worldClear_ne i j w (fun he => hj he.symm) hval,
      fun _ => ⟨?_, ?_, hfresh⟩⟩
    · rw [hw']
      simp [sizeH, storageOf, refOf, List.getElem?_set_self hi_lt,
        List.getElem?_concat_length, stack_data.size, stack_data.empty]
    · rw [hw']
      simp [countH, storageOf, refOf, List.getElem?_set_self hi_lt,
        List.getElem?_concat_length, stack_data.count, stack_data.empty, map_find]
    · rw [hw']
      simp [taintH, List.getElem?_set_self hi_lt]
    · rw [hw']
      simp [refOf, List.getElem?_set_self hi_lt]
    · rw [hw']
      simp [List.getElem?_concat_length]
  · have hw' : (worldClear i w).1 = ⟨w.heap.set d sd.clearData,
        w.handles.set i ⟨some d, false⟩⟩ := by
      simp only [worldClear, hh, hd, hsd, if_neg hsh]
    refine ⟨?_, fun k => ?_, ?_,
      fun j hj => obs_worldClear_ne i j w (fun he => hj he.symm) hval,
      fun hs => absurd hs hsh⟩
    · rw [hw']
      simp [sizeH, storageOf, refOf, List.getElem?_set_self hi_lt,
        List.getElem?_set_self hd_lt, stack_data.size, stack_data.clearData]
    · rw [hw']
      simp [countH, storageOf, refOf, List.getElem?_set_self hi_lt,
        List.getElem?_set_self hd_lt, stack_data.count, stack_data.clearData, map_find]
    · rw [hw']
      simp [taintH, List.getElem?_set_self hi_lt]

theorem C8_clear_semantics_witness :
    sizeH (worldClear 0 (⟨[pushes [((1 : Nat), (2 : Nat))]],
        [⟨some 0, false⟩, ⟨some 0, false⟩]⟩ : world Nat Nat)).1 0 = some 0
    ∧ taintH (worldClear 0 (⟨[pushes [((1 : Nat), (2 : Nat))]],
        [⟨some 0, false⟩, ⟨some 0, false⟩]⟩ : world Nat Nat)).1 0 = some false :=
  ⟨(C8_clear_semantics (⟨[pushes [((1 : Nat), (2 : Nat))]],
      [⟨some 0, false⟩, ⟨some 0, false⟩]⟩ : world Nat Nat) 0 ⟨some 0, false⟩ 0 _
      rfl rfl rfl (by decide)).1,
   (C8_clear_semantics (⟨[pushes [((1 : Nat), (2 : Nat))]],
      [⟨some 0, false⟩, ⟨some 0, false⟩]⟩ : world Nat Nat) 0 ⟨some 0, false⟩ 0 _
      rfl rfl rfl (by decide)).2.2.1⟩

/-- C9 counterexample: the claim says operations on a moved-from handle
behave as on an empty stack, but `stack(stack&&)` moves the `shared_ptr`
out, leaving the source's pointer null; `size()` then dereferences a null
pointer (modelled as `none`) instead of returning 0. -/
theorem C9_counterexample :
    sizeH (worldMove 0 (⟨[pushes [((1 : Nat), (2 : Nat))]],
        [⟨some 0, false⟩]⟩ : world Nat Nat)) 0 = none
    ∧ ¬ sizeH (worldMove 0 (⟨[pushes [((1 : Nat), (2 : Nat))]],
        [⟨some 0, false⟩]⟩ : world Nat Nat)) 0 = some 0 := by
  constructor
  · rfl
  · decide

/-- C9 (amended): after move construction the new handle (index
`w.handles.length`) holds the source's prior storage reference, flag, and
observable contents, while the source handle is left with a null pointer:
it is safe to destroy or to assign to (assignment overwrites the handle
and restores a valid state without dereferencing it), but any other
operation on it dereferences a null pointer — undefined behaviour, not
empty-stack behaviour. -/
theorem C9_move_nulls_source (w : world K V) (i : Nat) (h : handle_t)
    (hh : w.handles[i]? = some h) :
    refOf (worldMove i w) w.handles.length = h.dataRef
    ∧ taintH (worldMove i w) w.handles.length = some h.is_unsharable
    ∧ storageOf (worldMove i w) w.handles.length = storageOf w i
    ∧ refOf (worldMove i w) i = none
    ∧ sizeH (worldMove i w) i = none
    ∧ (∀ (fp : Option push_fail) (k : K) (v : V),
        (worldPushF fp i k v (worldMove i w)).2 = some .corrupt
        ∧ (worldPushF fp i k v (worldMove i w)).1 = worldMove i w)
    ∧ (∀ (src : Nat) (h' : handle_t) (d : Nat) (sd : stack_data K V),
        (worldMove i w).handles[src]? = some h' → h'.dataRef = some d →
        (worldMove i w).heap[d]? = some sd → sd.Inv →
        storageOf (worldAssign i src (worldMove i w)) i = some sd) := by
  have hi_lt : i < w.handles.length := lt_length_of_getElem? hh
  have hw' : worldMove i w = ⟨w.heap,
      (w.handles.set i ⟨none, h.is_unsharable⟩) ++ [⟨h.dataRef, h.is_unsharable⟩]⟩ := by
    simp only [worldMove, hh]
  have hlen : (w.handles.set i ⟨none, h.is_unsharable⟩).length = w.handles.length := by
    simp
  have hnew : (worldMove i w).handles[w.handles.length]?
      = some ⟨h.dataRef, h.is_unsharable⟩ := by
    rw [hw']
    show ((w.handles.set i ⟨none, h.is_unsharable⟩) ++
      [⟨h.dataRef, h.is_unsharable⟩])[w.handles.length]? = _
    rw [← hlen, List.getElem?_concat_length]
  have hsrc : (worldMove i w).handles[i]? = some ⟨none, h.is_unsharable⟩ := by
    rw [hw']
    show ((w.handles.set i ⟨none, h.is_unsharable⟩) ++
      [⟨h.dataRef, h.is_unsharable⟩])[i]? = _
    rw [getElem?_append_left' (by rw [hlen]; exact hi_lt), List.getElem?_set_self hi_lt]
  refine ⟨?_, ?_, ?_, ?_, ?_, ?_, ?_⟩
  · rw [refOf, hnew]
    rfl
  · rw [taintH, hnew]
    rfl
  · rw [storageOf, refOf, hnew, storageOf, refOf, hh]
    rw [hw']
  · rw [refOf, hsrc]
    rfl
  · rw [sizeH, storageOf, refOf, hsrc]
    rfl
  · intro fp k v
    constructor
    · simp only [worldPushF, hsrc]
    · simp only [worldPushF, hsrc]
  · intro src h' d sd hh' hd' hsd' hinv
    cases hu : h'.is_unsharable with
    | true =>
      have hw2 : worldAssign i src (worldMove i w) = ⟨(worldMove i w).heap ++ [copy_ctor sd],
          (worldMove i w).handles.set i ⟨some (worldMove i w).heap.length, false⟩⟩ := by
        simp [worldAssign, hh', hu, hd', hsd']
      rw [hw2]
      have hi_lt2 : i < (worldMove i w).handles.length := by
        rw [hw']
        simp
        omega
      simp [storageOf, refOf, List.getElem?_set_self hi_lt2,
        List.getElem?_concat_length, copy_ctor_of_inv hinv]
    | false =>
      have hw2 : worldAssign i src (worldMove i w) = ⟨(worldMove i w).heap,
          (worldMove i w).handles.set i ⟨h'.dataRef, false⟩⟩ := by
        simp [worldAssign, hh', hu]
      rw [hw2]
      have hi_lt2 : i < (worldMove i w).handles.length := by
        rw [hw']
        simp
        omega
      simp [storageOf, refOf, List.getElem?_set_self hi_lt2, hd', hsd']

theorem C9_move_nulls_source_witness :
    refOf (worldMove 0 (⟨[pushes [((1 : Nat), (2 : Nat))]],
        [⟨some 0, true⟩]⟩ : world Nat Nat)) 1 = some 0
    ∧ refOf (worldMove 0 (⟨[pushes [((1 : Nat), (2 : Nat))]],
        [⟨some 0, true⟩]⟩ : world Nat Nat)) 0 = none :=
  ⟨(C9_move_nulls_source (⟨[pushes [((1 : Nat), (2 : Nat))]],
      [⟨some 0, true⟩]⟩ : world Nat Nat) 0 ⟨some 0, true⟩ rfl).1,
   (C9_move_nulls_source (⟨[pushes [((1 : Nat), (2 : Nat))]],
      [⟨some 0, true⟩]⟩ : world Nat Nat) 0 ⟨some 0, true⟩ rfl).2.2.2.1⟩

end ClaimsC

section ClaimsD

variable {K V : Type} [LinearOrder K]

/-- C10 (implicit): the non-const `front()` and `front(k)` run
`assume_state(make_copy_if_needed(true))` before the emptiness / key
check: after the call — even a failing one — the handle is Tainted and its
storage block is referenced by that handle alone (a fresh deep copy when
it was shared), while the logical contents are unchanged; the call's
result then fails exactly per the storage-level taxonomy. -/
theorem C10_mutable_front_taints (w : world K V) (i : Nat) (h : handle_t) (d : Nat)
    (sd : stack_data K V) (hh : w.handles[i]? = some h) (hd : h.dataRef = some d)
    (hsd : w.heap[d]? = some sd) (hinv : sd.Inv) (hval : WValid w) :
    (taintH (worldFront i w).1 i = some true
      ∧ obsH (worldFront i w).1 i = some sd.stack_list
      ∧ (∀ d' : Nat, refOf (worldFront i w).1 i = some d' →
          use_count d' (worldFront i w).1 = 1)
      ∧ (sd.stack_list = [] → (worldFront i w).2 = .error .empty_container)
      ∧ (sd.stack_list ≠ [] → ∃ kv, (worldFront i w).2 = .ok kv))
    ∧ (∀ k : K,
        taintH (worldFrontKey i k w).1 i = some true
        ∧ obsH (worldFrontKey i k w).1 i = some sd.stack_list
        ∧ (∀ d' : Nat, refOf (worldFrontKey i k w).1 i = some d' →
            use_count d' (worldFrontKey i k w).1 = 1)
        ∧ (sd.stack_list = [] → (worldFrontKey i k w).2 = .error .empty_container)
        ∧ (sd.stack_list ≠ [] → valuesOf k sd.stack_list = [] →
            (worldFrontKey i k w).2 = .error .key_not_found)
        ∧ (valuesOf k sd.stack_list ≠ [] → ∃ v, (worldFrontKey i k w).2 = .ok v)) := by
  have hi_lt : i < w.handles.length := lt_length_of_getElem? hh
  have hcopy : copy_ctor sd = sd := copy_ctor_of_inv hinv
  have hall : ∀ x ∈ w.handles,
      (fun h0 : handle_t => decide (h0.dataRef = some w.heap.length)) x = false := by
    intro x hx
    cases hxd : x.dataRef with
    | none => simp [hxd]
    | some e =>
      have hlt := hval x hx e hxd
      simp [hxd]
      omega
  by_cases hsh : 1 < use_count d w
  · have hw1 : (worldFront i w).1 = ⟨w.heap ++ [copy_ctor sd],
        w.handles.set i ⟨some w.heap.length, true⟩⟩ := by
      simp only [worldFront, hh, hd, hsd, if_pos hsh]
    have hr1 : (worldFront i w).2 = sd.front := by
      simp only [worldFront, hh, hd, hsd, if_pos hsh, hcopy]
    refine ⟨⟨?_, ?_, ?_, ?_, ?_⟩, fun k => ?_⟩
    · rw [hw1]
      simp [taintH, List.getElem?_set_self hi_lt]
    · rw [hw1]
      simp [obsH, storageOf, refOf, List.getElem?_set_self hi_lt,
        List.getElem?_concat_length, hcopy]
    · intro d' hd'
      rw [hw1, refOf, List.getElem?_set_self hi_lt] at hd'
      simp at hd'
      rw [hw1, use_count, ← hd']
      exact countP_set_untouched _ w.handles i _ h hh hall (by simp)
    · intro hnil
      rw [hr1]
      exact front_of_empty hinv hnil
    · intro hne
      rw [hr1]
      exact front_of_ne_empty hinv hne
    · have hw1k : (worldFrontKey i k w).1 = ⟨w.heap ++ [copy_ctor sd],
          w.handles.set i ⟨some w.heap.length, true⟩⟩ := by
        simp only [worldFrontKey, hh, hd, hsd, if_pos hsh]
      have hr1k : (worldFrontKey i k w).2 = sd.frontKey k := by
        simp only [worldFrontKey, hh, hd, hsd, if_pos hsh, hcopy]
      refine ⟨?_, ?_, ?_, ?_, ?_, ?_⟩
      · rw [hw1k]
        simp [taintH, List.getElem?_set_self hi_lt]
      · rw [hw1k]
        simp [obsH, storageOf, refOf, List.getElem?_set_self hi_lt,
          List.getElem?_concat_length, hcopy]
      · intro d' hd'
        rw [hw1k, refOf, List.getElem?_set_self hi_lt] at hd'
        simp at hd'
        rw [hw1k, use_count, ← hd']
        exact countP_set_untouched _ w.handles i _ h hh hall (by simp)
      · intro hnil
        rw [hr1k]
        exact frontKey_of_empty hinv hnil k
      · intro hne hv
        rw [hr1k]
        exact frontKey_of_absent hinv hne hv
      · intro hv
        rw [hr1k]
        exact frontKey_of_present hinv hv
  · have huc : use_count d w = 1 := by
      have hpos := use_count_pos hh hd
      omega
    have hw1 : (worldFront i w).1 = ⟨w.heap,
        w.handles.set i ⟨some d, true⟩⟩ := by
      simp only [worldFront, hh, hd, hsd, if_neg hsh]
    have hr1 : (worldFront i w).2 = sd.front := by
      simp only [worldFront, hh, hd, hsd, if_neg hsh]
    have hucset : (w.handles.set i (⟨some d, true⟩ : handle_t)).countP
        (fun h0 => decide (h0.dataRef = some d)) = 1 := by
      rw [countP_set_preserve _ w.handles i _ h hh (by simp [hd])]
      exact huc
    refine ⟨⟨?_, ?_, ?_, ?_, ?_⟩, fun k => ?_⟩
    · rw [hw1]
      simp [taintH, List.getElem?_set_self hi_lt]
    · rw [hw1]
      simp [obsH, storageOf, refOf, List.getElem?_set_self hi_lt, hsd]
    · intro d' hd'
      rw [hw1, refOf, List.getElem?_set_self hi_lt] at hd'
      simp at hd'
      rw [hw1, use_count, ← hd']
      exact hucset
    · intro hnil
      rw [hr1]
      exact front_of_empty hinv hnil
    · intro hne
      rw [hr1]
      exact front_of_ne_empty hinv hne
    · have hw1k : (worldFrontKey i k w).1 = ⟨w.heap,
          w.handles.set i ⟨some d, true⟩⟩ := by
        simp only [worldFrontKey, hh, hd, hsd, if_neg hsh]
      have hr1k : (worldFrontKey i k w).2 = sd.frontKey k := by
        simp only [worldFrontKey, hh, hd, hsd, if_neg hsh]
      refine ⟨?_, ?_, ?_, ?_, ?_, ?_⟩
      · rw [hw1k]
        simp [taintH, List.getElem?_set_self hi_lt]
      · rw [hw1k]
        simp [obsH, storageOf, refOf, List.getElem?_set_self hi_lt, hsd]
      · intro d' hd'
        rw [hw1k, refOf, List.getElem?_set_self hi_lt] at hd'
        simp at hd'
        rw [hw1k, use_count, ← hd']
        exact hucset
      · intro hnil
        rw [hr1k]
        exact frontKey_of_empty hinv hnil k
      · intro hne hv
        rw [hr1k]
        exact frontKey_of_absent hinv hne hv
      · intro hv
        rw [hr1k]
        exact frontKey_of_present hinv hv

theorem C10_mutable_front_taints_witness :
    taintH (worldFront 0 (⟨[pushes [((1 : Nat), (2 : Nat))]],
        [⟨some 0, false⟩, ⟨some 0, false⟩]⟩ : world Nat Nat)).1 0 = some true
    ∧ obsH (worldFront 0 (⟨[pushes [((1 : Nat), (2 : Nat))]],
        [⟨some 0, false⟩, ⟨some 0, false⟩]⟩ : world Nat Nat)).1 0
      = some (pushes [((1 : Nat), (2 : Nat))]).stack_list :=
  ⟨(C10_mutable_front_taints (⟨[pushes [((1 : Nat), (2 : Nat))]],
      [⟨some 0, false⟩, ⟨some 0, false⟩]⟩ : world Nat Nat) 0 ⟨some 0, false⟩ 0 _
      rfl rfl rfl (by decide) (by decide)).1.1,
   (C10_mutable_front_taints (⟨[pushes [((1 : Nat), (2 : Nat))]],
      [⟨some 0, false⟩, ⟨some 0, false⟩]⟩ : world Nat Nat) 0 ⟨some 0, false⟩ 0 _
      rfl rfl rfl (by decide) (by decide)).1.2.1⟩

end ClaimsD
